import Mathlib

/-!
TTL cache of the Google Fonts plugin (`cache/ttl.go`)

A shallow embedding of `TTLCache[K, V]`.

* `time.Time` is an integer number of nanoseconds on one time line and
  `time.Duration` an integer number of nanoseconds (possibly negative);
  `t.Add(d)` is `t + d` and `a.After(b)` is `b < a`.
* The Go map `map[K]item[V]` is an association list with pairwise distinct keys
  (`AList`): `m[k]` is `AList.lookup`, `m[k] = x` is `AList.insert`,
  `delete(m, k)` is `AList.erase`, `len(m)` is the number of entries, and
  `range m` visits the entries in the order of the list.
* Every method runs under the cache mutex, so a method is a function from the
  state before to the result and the state after.  Each call of `time.Now()`
  is an explicit argument.
* `V`'s zero value is `default`.
-/

namespace cache

/-- An instant, in nanoseconds. -/
abbrev Time := Int

/-- A span of time, in nanoseconds; negative spans are allowed, as in Go. -/
abbrev Duration := Int

/-- A cache item: a value and an expiration time. -/
structure item (V : Type) where
  value : V
  expiry : Time
deriving DecidableEq, Repr

/-- The zero `item`, which is what indexing a Go map yields for a missing key. -/
instance {V : Type} [Inhabited V] : Inhabited (item V) := ⟨⟨default, 0⟩⟩

/-- Go `isExpired`: `time.Now().After(i.expiry)`, with `now` the clock reading. -/
def item.isExpired {V : Type} (i : item V) (now : Time) : Bool :=
  decide (i.expiry < now)

/-- Go `TTLCache`: the item map and the default time to live. -/
structure TTLCache (K V : Type) where
  items : AList (fun _ : K => item V)
  defaultTTL : Duration

section ops

variable {K V : Type} [DecidableEq K]

/-- The Go comma-ok map index `item, found := c.items[key]`. -/
def index [Inhabited V] (m : AList (fun _ : K => item V)) (key : K) : item V × Bool :=
  match m.lookup key with
  | some i => (i, true)
  | none => (default, false)

/-- Go `NewTTL`: the empty cache (the sweep goroutine is `sweep` below). -/
def NewTTL (ttl : Duration) : TTLCache K V :=
  { items := ∅, defaultTTL := ttl }

/-- Go `SetWithTTL`: store `value` under `key`, expiring at `now + ttl`. -/
def SetWithTTL (c : TTLCache K V) (key : K) (value : V) (ttl : Duration) (now : Time) :
    TTLCache K V :=
  { c with items := c.items.insert key { value := value, expiry := now + ttl } }

/-- Go `Set`: `SetWithTTL` with the default time to live. -/
def Set (c : TTLCache K V) (key : K) (value : V) (now : Time) : TTLCache K V :=
  SetWithTTL c key value c.defaultTTL now

/-- Go `Get`: the value and the found flag, and the cache afterwards. -/
def Get [Inhabited V] (c : TTLCache K V) (key : K) (now : Time) : (V × Bool) × TTLCache K V :=
  let (item, found) := index c.items key
  if !found then
    ((item.value, false), c)
  else if item.isExpired now then
    ((item.value, false), { c with items := c.items.erase key })
  else
    ((item.value, true), c)

/-- Go `Remove`: delete the key. -/
def Remove (c : TTLCache K V) (key : K) : TTLCache K V :=
  { c with items := c.items.erase key }

/-- Go `Pop`: the value and the found flag, and the cache afterwards. -/
def Pop [Inhabited V] (c : TTLCache K V) (key : K) (now : Time) : (V × Bool) × TTLCache K V :=
  let (item, found) := index c.items key
  if !found then
    ((item.value, false), c)
  else
    let c' : TTLCache K V := { c with items := c.items.erase key }
    if item.isExpired now then
      ((item.value, false), c')
    else
      ((item.value, true), c')

/-- Go `Len`: the number of items of the map, and the cache afterwards. -/
def Len (c : TTLCache K V) : Nat × TTLCache K V :=
  (c.items.entries.length, c)

/-- Go `Update`: apply `f` to the value stored under `key`, if there is one. -/
def Update [Inhabited V] (c : TTLCache K V) (key : K) (f : V → V) : TTLCache K V :=
  let (item, found) := index c.items key
  if found then
    { c with items := c.items.insert key { item with value := f item.value } }
  else
    c

/-- The `range` loop of `Iterator` over the entries still to visit: `yield`
receives the consumer state and a value and answers with the new state and
whether to go on. -/
def rangeYield {σ : Type} (yield : σ → V → σ × Bool) :
    List (Sigma (fun _ : K => item V)) → σ → σ
  | [], s => s
  | e :: es, s =>
    let (s', more) := yield s e.2.value
    if !more then s' else rangeYield yield es s'

/-- Go `Iterator`: the push iterator applied to a consumer `yield` with state `s`. -/
def Iterator {σ : Type} (c : TTLCache K V) (yield : σ → V → σ × Bool) (s : σ) :
    σ × TTLCache K V :=
  (rangeYield yield c.items.entries s, c)

/-- Go `All`: the values collected from `Iterator`. -/
def All (c : TTLCache K V) : List V × TTLCache K V :=
  Iterator c (fun all v => (all ++ [v], true)) []

/-- The body of the sweep loop for one visited entry: `delete(c.items, key)`
when the item is expired at the clock reading `now`. -/
def sweepStep (now : Time) (m : AList (fun _ : K => item V))
    (e : Sigma (fun _ : K => item V)) : AList (fun _ : K => item V) :=
  if e.2.isExpired now then m.erase e.1 else m

/-- One pass of the sweep goroutine of `NewTTL`: every entry of the map is
visited once and deleted when `isExpired` says so; `clock key` is the reading
of `time.Now()` taken while visiting `key`. -/
def sweep (c : TTLCache K V) (clock : K → Time) : TTLCache K V :=
  let swept := c.items.entries.foldl (fun m e => sweepStep (clock e.1) m e) c.items
  { c with items := swept }

end ops

end cache

/-!
The font service (`font-service/*.go`, `utils/fsutils.go`)

A Go `string` is a `String`, a slice is a `List`, a `map[string]string` is an
`AList` whose `range` order is the order of the list, and a nil pointer is
`none`.  Functions of the Go standard library that the code calls are either
modelled next to their use (`strings.Split`, `strings.Contains`,
`fmt.Sscanf`) or taken as arguments (`strings.ToLower`, `sort.Slice`,
`slices.SortedFunc`, `json.Unmarshal`, and `os.Stat`, `os.Open`, `io.ReadAll`
as the fields of `os.FS`).
-/

/-- A Go `error` value: `os.ErrNotExist` or any other error. -/
inductive GoError where
  | ErrNotExist
  | Other (msg : String)
deriving DecidableEq, Repr

namespace strings

/-- Go `strings.Split(s, sep)` for a separator `sep` of one character, on the
characters of `s`: the pieces between the occurrences of `sep`; there is always
at least one piece. -/
def splitChars (sep : Char) : List Char → List (List Char)
  | [] => [[]]
  | c :: cs =>
    if c = sep then
      [] :: splitChars sep cs
    else
      match splitChars sep cs with
      | p :: ps => (c :: p) :: ps
      | [] => [[c]]

/-- Go `strings.Split(s, sep)` for a separator of one character. -/
def Split (s : String) (sep : Char) : List String :=
  (splitChars sep s.data).map String.mk

/-- Go `strings.Contains(s, substr)`. -/
def Contains (s substr : String) : Bool :=
  decide (substr.data <:+: s.data)

end strings

namespace fmt

/-- Go `isSpace` of package `fmt`: the Unicode white space table of `scan.go`. -/
def isSpace (r : Char) : Bool :=
  let n := r.toNat
  (0x0009 ≤ n && n ≤ 0x000d) || n == 0x0020 || n == 0x0085 || n == 0x00a0 || n == 0x1680 ||
    (0x2000 ≤ n && n ≤ 0x200a) || (0x2028 ≤ n && n ≤ 0x2029) || n == 0x202f || n == 0x205f ||
    n == 0x3000

/-- Go `(*ss).SkipSpace` as `Sscanf` runs it (a newline is not a space): the
input left after the leading spaces, or `none` for the error "unexpected
newline". -/
def skipSpace : List Char → Option (List Char)
  | [] => some []
  | r :: rest =>
    if r = Char.ofNat 13 && rest.head? = some (Char.ofNat 10) then
      skipSpace rest
    else if r = Char.ofNat 10 then
      none
    else if !isSpace r then
      some (r :: rest)
    else
      skipSpace rest

/-- The value of a run of decimal digits. -/
def digitsValue (digits : List Char) : Nat :=
  digits.foldl (fun n d => 10 * n + (d.toNat - 48)) 0

/-- Go `(*ss).scanNumber` followed by `strconv.ParseInt(tok, 10, 64)` for a
token whose sign has been read: at least one decimal digit is read, and the
conversion fails outside the 64-bit range.  The answer is the number and the
input left, or `none` for an error. -/
def scanNumber (negative : Bool) (afterSign : List Char) : Option (Int × List Char) :=
  let digits := afterSign.takeWhile Char.isDigit
  let rest := afterSign.dropWhile Char.isDigit
  if digits.isEmpty then
    none
  else if negative then
    if digitsValue digits ≤ 2 ^ 63 then some (-(digitsValue digits : Int), rest) else none
  else
    if digitsValue digits < 2 ^ 63 then some ((digitsValue digits : Int), rest) else none

/-- Go `(*ss).scanInt` for the verb `%d` and an `int` operand: spaces are
skipped, the input must not be at its end, an optional sign is accepted and the
number is scanned. -/
def scanInt (input : List Char) : Option (Int × List Char) :=
  match skipSpace input with
  | none => none
  | some [] => none
  | some (c :: cs) =>
    if c = '+' then
      scanNumber false cs
    else if c = '-' then
      scanNumber true cs
    else
      scanNumber false (c :: cs)

/-- Go `fmt.Sscanf(name, "%ditalic", &num)`: `some num` when the call returns
no error, that is when `name` is spaces, an integer and then the literal text
`italic`, and `none` when it returns an error. -/
def SscanfIntItalic (name : String) : Option Int :=
  match skipSpace name.data with
  | none => none
  | some input =>
    match scanInt input with
    | none => none
    | some (num, rest) => if "italic".data <+: rest then some num else none

end fmt

namespace sort

/-- Go `insertionSortLessFunc` (and `insertionSortCmpFunc` with `less a b` for
`cmp(a, b) < 0`), the routine that `sort.Slice` and `slices.SortFunc` run on a
slice of at most 12 elements: each element in turn moves left past every
element it is less than.  The accumulator is the sorted part, last element
first. -/
def insertionSort {α : Type} (less : α → α → Bool) (data : List α) : List α :=
  (data.foldl (fun sorted x => sorted.takeWhile (less x) ++ x :: sorted.dropWhile (less x))
    []).reverse

/-- The contract of `sort.Slice` for the comparison `less`: the result is a
rearrangement of the slice in which no element is less than an earlier one. -/
def Sorts {α : Type} (less : α → α → Bool) (sortSlice : List α → List α) : Prop :=
  ∀ data, (sortSlice data).Perm data ∧ (sortSlice data).Pairwise (fun a b => less b a = false)

end sort

namespace os

/-- The operating system as `loadCacheData` calls it, for file handles of type
`F`: `Stat path` is the error of `os.Stat(path)` (`none` for nil), `Open path`
is `os.Open(path)` and `ReadAll file` is `io.ReadAll(file)`.  Each call may
fail with any error. -/
structure FS (F : Type) where
  Stat : String → Option GoError
  Open : String → Except GoError F
  ReadAll : F → Except GoError (List UInt8)

/-- Go `os.IsNotExist(err)`; `GoError.ErrNotExist` stands for every error that
it accepts. -/
def IsNotExist (err : Option GoError) : Bool :=
  match err with
  | some GoError.ErrNotExist => true
  | _ => false

/-- The file system as an optional byte string per path: a path has no file,
and then `Stat` and `Open` answer "does not exist", or it has a file with some
bytes, and then every call succeeds.  A file handle is the content. -/
def ofContent (content : String → Option (List UInt8)) : FS (List UInt8) where
  Stat := fun path =>
    match content path with
    | some _ => none
    | none => some GoError.ErrNotExist
  Open := fun path =>
    match content path with
    | some bytes => Except.ok bytes
    | none => Except.error GoError.ErrNotExist
  ReadAll := fun file => Except.ok file

end os

namespace utils

/-- Go `FileExists`: `os.Stat` did not answer "does not exist". -/
def FileExists {F : Type} (fs : os.FS F) (path : String) : Bool :=
  !os.IsNotExist (fs.Stat path)

end utils

namespace font_service

/-- Go `FontAndVariant`. -/
structure FontAndVariant where
  Family : String
  Variant : String
deriving DecidableEq, Repr

/-- Go `FullName`: `f.Family + ":" + f.Variant`. -/
def FontAndVariant.FullName (f : FontAndVariant) : String :=
  f.Family ++ ":" ++ f.Variant

/-- Go `ExtractFamilyAndVariant`; `none` stands for the run-time panic of an
index out of range. -/
def ExtractFamilyAndVariant (familyStr : String) : Option FontAndVariant :=
  let data : FontAndVariant := { Family := "", Variant := "" }
  let parts := strings.Split familyStr ':'
  match parts[0]? with
  | none => none
  | some p0 =>
    let data := { data with Family := p0 }
    if parts.length > 1 then
      match parts[1]? with
      | none => none
      | some p1 => some { data with Variant := p1 }
    else
      some data

/-- Go `VariantPreviewObject`. -/
structure VariantPreviewObject where
  Template : String
  Small : String
  Large : String
deriving DecidableEq, Repr, Inhabited

/-- Go `FontFamilyVariant`. -/
structure FontFamilyVariant where
  Name : String
  FullName : String
  DownloadURL : String
  Preview : VariantPreviewObject
deriving DecidableEq, Repr, Inhabited

/-- Go `FontFamilyOrderValues`; `Popularity` is a Go `int`. -/
structure FontFamilyOrderValues where
  Popularity : Int
deriving DecidableEq, Repr, Inhabited

/-- Go `FontFamilyData`. -/
structure FontFamilyData where
  Name : String
  Category : String
  HasLicense : Bool
  Variants : List FontFamilyVariant
  Order : FontFamilyOrderValues
deriving DecidableEq, Repr, Inhabited

/-- Go `extractNumFromVariant`: the scanned number, or `0` when `Sscanf`
returns an error. -/
def extractNumFromVariant (name : String) : Int :=
  match fmt.SscanfIntItalic name with
  | none => 0
  | some num => num

/-- The three slices that the loop of `sortVariants` fills. -/
structure VariantBuckets where
  italicVariants : List FontFamilyVariant
  regularVariants : List FontFamilyVariant
  nonRegularVariants : List FontFamilyVariant
deriving DecidableEq, Repr

/-- The body of the loop of `sortVariants` for one variant; the regular
expression `italic` matches a name exactly when the name contains `italic`. -/
def sortVariantsStep (b : VariantBuckets) (variant : FontFamilyVariant) : VariantBuckets :=
  if strings.Contains variant.Name "italic" then
    if variant.Name = "italic" then
      { b with italicVariants := [variant] ++ b.italicVariants }
    else
      { b with italicVariants := b.italicVariants ++ [variant] }
  else if variant.Name = "regular" then
    { b with regularVariants := b.regularVariants ++ [variant] }
  else
    { b with nonRegularVariants := b.nonRegularVariants ++ [variant] }

/-- The comparison that `sortVariants` hands to `sort.Slice`. -/
def variantLess (a b : FontFamilyVariant) : Bool :=
  decide (extractNumFromVariant a.Name < extractNumFromVariant b.Name)

/-- Go `sortVariants`; `sortSlice` is `sort.Slice` with the comparison
`variantLess`. -/
def sortVariants (sortSlice : List FontFamilyVariant → List FontFamilyVariant)
    (variants : List FontFamilyVariant) : List FontFamilyVariant :=
  let b := variants.foldl sortVariantsStep
    { italicVariants := [], regularVariants := [], nonRegularVariants := [] }
  let italicVariants := sortSlice b.italicVariants
  (b.regularVariants ++ b.nonRegularVariants) ++ italicVariants

/-- Go `loadCacheData`: the pair `(loaded, err)` and the destination afterwards.
`unmarshal body data` is `json.Unmarshal(body, data)`: the destination after
the call and the error, if any. -/
def loadCacheData {F D : Type} (unmarshal : List UInt8 → D → D × Option GoError)
    (fs : os.FS F) (path : String) (data : D) : (Bool × Option GoError) × D :=
  if !utils.FileExists fs path then
    ((false, none), data)
  else
    match fs.Open path with
    | Except.error err => ((false, some err), data)
    | Except.ok file =>
      match fs.ReadAll file with
      | Except.error err => ((false, some err), data)
      | Except.ok bodyBytes =>
        if bodyBytes.length == 0 then
          ((false, none), data)
        else
          match unmarshal bodyBytes data with
          | (data2, some err) => ((false, some err), data2)
          | (data2, none) => ((true, none), data2)

/-- Go `GetFontsFilters`; `Search` is a `*string`. -/
structure GetFontsFilters where
  Categories : List String
  Search : Option String
deriving DecidableEq, Repr

/-- Go `HasCategory`. -/
def GetFontsFilters.HasCategory (f : GetFontsFilters) : Bool :=
  f.Categories.length > 0

/-- Go `HasSearch`: `f.Search != nil && *f.Search != ""`. -/
def GetFontsFilters.HasSearch (f : GetFontsFilters) : Bool :=
  match f.Search with
  | none => false
  | some search => search != ""

/-- Go `CanAddToResults`; `toLower` is `strings.ToLower`, and
`slices.Contains` is list membership. -/
def GetFontsFilters.CanAddToResults (toLower : String → String) (f : GetFontsFilters)
    (font : FontFamilyData) : Bool :=
  if f.HasCategory && !(f.Categories.contains font.Category) then
    false
  else if f.HasSearch &&
      !(strings.Contains (toLower font.Name) (toLower (f.Search.getD ""))) then
    false
  else
    true

/-- Go `GoogleFontsProvider`. -/
structure GoogleFontsProvider where
  cache : cache.TTLCache String FontFamilyData
  categories : List String

/-- Go `GetId`. -/
def GoogleFontsProvider.GetId (_g : GoogleFontsProvider) : String := "google"

/-- The value of an integer expression in a Go `int` of 64 bits: the result
wraps around modulo `2 ^ 64`. -/
def wrapInt64 (x : Int) : Int :=
  (x + 2 ^ 63) % 2 ^ 64 - 2 ^ 63

/-- The comparison that `GetFonts` hands to `slices.SortedFunc`:
`a.Order.Popularity - b.Order.Popularity`, computed in a Go `int`. -/
def popularityCmp (a b : FontFamilyData) : Int :=
  wrapInt64 (a.Order.Popularity - b.Order.Popularity)

/-- The comparison `popularityCmp(a, b) < 0` that the sort acts on. -/
def popularityLess (a b : FontFamilyData) : Bool :=
  decide (popularityCmp a b < 0)

/-- The predicate that `GetFonts` hands to `iterutil.FilterFunc`. -/
def getFontsKeep (toLower : String → String) (opts : Option GetFontsFilters)
    (data : FontFamilyData) : Bool :=
  match opts with
  | some o => o.CanAddToResults toLower data
  | none => true

/-- Go `GetFonts`: the values of the cache iterator that pass the filter are
collected and sorted; `sortFunc` is the sort of `slices.SortedFunc` with the
comparison `popularityCmp`.  The error is always nil. -/
def GetFonts (toLower : String → String)
    (sortFunc : List FontFamilyData → List FontFamilyData)
    (g : GoogleFontsProvider) (opts : Option GetFontsFilters) :
    List FontFamilyData × Option GoError :=
  let filterIter := (cache.Iterator g.cache
    (fun (acc : List FontFamilyData) data =>
      (if getFontsKeep toLower opts data then acc ++ [data] else acc, true)) []).1
  (sortFunc filterIter, none)

/-- Go `webFontFamily`; `Files` is the map from variant name to URL. -/
structure webFontFamily where
  Category : Option String
  Kind : String
  Family : String
  Subsets : List String
  Variants : List String
  Version : String
  LastModified : String
  Files : AList (fun _ : String => String)

/-- The closure `createVariantPreviewObj` of `CacheFonts` for the family name
`family` and the provider id `id`. -/
def createVariantPreviewObj (id family variantName : String) : VariantPreviewObject :=
  let variantStr := family.replace " " "%20" ++ ":" ++ variantName
  let text := family.replace " " "%20"
  { Template := "/api/" ++ id ++ "/fonts/preview?families=" ++ variantStr ++
      "&resultType=png&small=\x7bIsSmall\x7d&text=\x7bText\x7d",
    Small := "/api/" ++ id ++ "/fonts/preview?families=" ++ variantStr ++
      "&resultType=png&small=true&text=" ++ text,
    Large := "/api/" ++ id ++ "/fonts/preview?families=" ++ variantStr ++
      "&resultType=png&small=false&text=" ++ text }

/-- The variables that the loop over `font.Files` updates. -/
structure FilesLoopState where
  Variants : List FontFamilyVariant
  hasRegular : Bool
  has500 : Bool

/-- The body of the loop over `font.Files` for one `key, url`. -/
def filesLoopStep (id family : String) (st : FilesLoopState)
    (e : Sigma (fun _ : String => String)) : FilesLoopState :=
  let st1 : FilesLoopState := { st with Variants := st.Variants ++ [{
    Name := e.1,
    FullName := family ++ ":" ++ e.1,
    DownloadURL := e.2,
    Preview := createVariantPreviewObj id family e.1 }] }
  let st2 : FilesLoopState := if e.1 = "regular" then { st1 with hasRegular := true } else st1
  if e.1 = "500" then { st2 with has500 := true } else st2

/-- The body of the loop of `CacheFonts` for the catalog item `font` at index
`i`, up to the call of `g.cache.Set`: the item to store, or `none` when the
loop goes on to the next item without storing.  A missing map key reads as
the empty string. -/
def cacheFontsItem (sortSlice : List FontFamilyVariant → List FontFamilyVariant)
    (id : String) (i : Nat) (font : webFontFamily) : Option FontFamilyData :=
  let category := match font.Category with
    | some c => c
    | none => "unknown"
  let item : FontFamilyData := {
    Name := font.Family,
    Category := category,
    Variants := [],
    HasLicense := true,
    Order := { Popularity := (i : Int) } }
  let st := font.Files.entries.foldl (filesLoopStep id font.Family)
    { Variants := item.Variants, hasRegular := false, has500 := false }
  if !st.hasRegular && !st.has500 then
    none
  else
    let variants :=
      if !st.hasRegular then
        st.Variants ++ [{
          Name := "regular",
          FullName := font.Family ++ ":regular",
          DownloadURL := (font.Files.lookup "500").getD "",
          Preview := createVariantPreviewObj id font.Family "500" }]
      else
        st.Variants
    some { item with Variants := sortVariants sortSlice variants }

/-- The variables that the loop of `CacheFonts` updates. -/
structure CacheFontsState where
  g : GoogleFontsProvider
  uniqueCategories : List String
  shortItems : List FontFamilyData

/-- One round of the loop of `CacheFonts`; `now` is the clock reading of the
call of `Set`. -/
def cacheFontsStep (sortSlice : List FontFamilyVariant → List FontFamilyVariant)
    (now : cache.Time) (st : CacheFontsState) (i : Nat) (font : webFontFamily) :
    CacheFontsState :=
  let category := match font.Category with
    | some c => c
    | none => "unknown"
  let categories :=
    if st.uniqueCategories.contains category then st.uniqueCategories
    else st.uniqueCategories ++ [category]
  let st1 : CacheFontsState := { st with uniqueCategories := categories }
  match cacheFontsItem sortSlice st1.g.GetId i font with
  | none => st1
  | some item =>
    let g2 : GoogleFontsProvider := { st1.g with cache := cache.Set st1.g.cache item.Name item now }
    { st1 with g := g2, shortItems := st1.shortItems ++ [item] }

/-- Go `CacheFonts` from the decoded catalog on: `items` is `jsonData.Items`
(fetching and decoding the catalog are outside the model) and `clock i` is the
clock reading of the call of `Set` in round `i`.  The answer is the pair
`(shortItems, err)` and the provider afterwards. -/
def CacheFonts (sortSlice : List FontFamilyVariant → List FontFamilyVariant)
    (clock : Nat → cache.Time) (g : GoogleFontsProvider) (items : List webFontFamily) :
    (List FontFamilyData × Option GoError) × GoogleFontsProvider :=
  let st := items.enum.foldl (fun st p => cacheFontsStep sortSlice (clock p.1) st p.1 p.2)
    { g := g, uniqueCategories := [], shortItems := [] }
  ((st.shortItems, none), { st.g with categories := st.uniqueCategories })

end font_service

namespace cache

/-! ## Reading the map -/

theorem length_entries_eq_keys {K V : Type} (m : AList (fun _ : K => item V)) :
    m.entries.length = m.keys.length := by
  simp [AList.keys, List.keys]

theorem rangeYield_collect {K V : Type} (es : List (Sigma (fun _ : K => item V))) :
    ∀ acc : List V,
      rangeYield (fun (all : List V) v => (all ++ [v], true)) es acc
        = acc ++ es.map (fun e => e.2.value) := by
  induction es with
  | nil => intro acc; simp [rangeYield]
  | cons e es ih => intro acc; simp [rangeYield, ih]

theorem All_eq {K V : Type} (c : TTLCache K V) :
    All c = (c.items.entries.map (fun e => e.2.value), c) := by
  simp [All, Iterator, rangeYield_collect]

section lemmas

variable {K V : Type} [DecidableEq K]

theorem index_of_none [Inhabited V] {m : AList (fun _ : K => item V)} {key : K}
    (h : m.lookup key = none) : index m key = (default, false) := by
  simp [index, h]

theorem index_of_some [Inhabited V] {m : AList (fun _ : K => item V)} {key : K} {i : item V}
    (h : m.lookup key = some i) : index m key = (i, true) := by
  simp [index, h]

theorem Get_of_none [Inhabited V] (c : TTLCache K V) (key : K) (now : Time)
    (h : c.items.lookup key = none) : Get c key now = ((default, false), c) := by
  simp [Get, index_of_none h]
  rfl

theorem Get_of_live [Inhabited V] (c : TTLCache K V) (key : K) (now : Time) (i : item V)
    (h : c.items.lookup key = some i) (hl : i.isExpired now = false) :
    Get c key now = ((i.value, true), c) := by
  simp [Get, index_of_some h, hl]

theorem Get_of_expired [Inhabited V] (c : TTLCache K V) (key : K) (now : Time) (i : item V)
    (h : c.items.lookup key = some i) (he : i.isExpired now = true) :
    Get c key now = ((i.value, false), { c with items := c.items.erase key }) := by
  simp [Get, index_of_some h, he]

theorem Pop_of_none [Inhabited V] (c : TTLCache K V) (key : K) (now : Time)
    (h : c.items.lookup key = none) : Pop c key now = ((default, false), c) := by
  simp [Pop, index_of_none h]
  rfl

theorem Pop_of_some [Inhabited V] (c : TTLCache K V) (key : K) (now : Time) (i : item V)
    (h : c.items.lookup key = some i) :
    Pop c key now = ((i.value, !i.isExpired now), { c with items := c.items.erase key }) := by
  cases he : i.isExpired now <;> simp [Pop, index_of_some h, he]

theorem pop_lookup_self [Inhabited V] (c : TTLCache K V) (key : K) (now : Time) :
    (Pop c key now).2.items.lookup key = none := by
  cases h : c.items.lookup key with
  | none => rw [Pop_of_none c key now h]; exact h
  | some i => rw [Pop_of_some c key now i h]; simp [AList.lookup_erase]

theorem lookup_SetWithTTL_self (c : TTLCache K V) (key : K) (value : V) (ttl : Duration)
    (now : Time) :
    (SetWithTTL c key value ttl now).items.lookup key
      = some { value := value, expiry := now + ttl } := by
  simp [SetWithTTL, AList.lookup_insert]

theorem isExpired_eq_false_iff (i : item V) (now : Time) :
    i.isExpired now = false ↔ now ≤ i.expiry := by
  simp [item.isExpired]

theorem isExpired_eq_true_iff (i : item V) (now : Time) :
    i.isExpired now = true ↔ i.expiry < now := by
  simp [item.isExpired]

/-! ## Counting the entries of the map -/

theorem length_erase_of_mem (m : AList (fun _ : K => item V)) (key : K) (h : key ∈ m) :
    (m.erase key).entries.length + 1 = m.entries.length := by
  have hk : key ∈ m.keys := AList.mem_keys.1 h
  have hpos : 0 < m.keys.length := List.length_pos_of_mem hk
  rw [length_entries_eq_keys, length_entries_eq_keys, AList.keys_erase,
    List.length_erase_of_mem hk]
  omega

theorem erase_of_not_mem (m : AList (fun _ : K => item V)) (key : K) (h : key ∉ m) :
    m.erase key = m := by
  apply AList.ext
  exact List.kerase_of_not_mem_keys (fun hk => h (AList.mem_keys.2 hk))

theorem length_insert_of_mem (m : AList (fun _ : K => item V)) (key : K) (i : item V)
    (h : key ∈ m) : (m.insert key i).entries.length = m.entries.length := by
  have hk : key ∈ m.keys := AList.mem_keys.1 h
  have hpos : 0 < m.keys.length := List.length_pos_of_mem hk
  rw [length_entries_eq_keys, length_entries_eq_keys, AList.keys_insert, List.length_cons,
    List.length_erase_of_mem hk]
  omega

theorem length_insert_of_not_mem (m : AList (fun _ : K => item V)) (key : K) (i : item V)
    (h : key ∉ m) : (m.insert key i).entries.length = m.entries.length + 1 := by
  rw [AList.insert_entries_of_neg h, List.length_cons]

theorem length_insert (m : AList (fun _ : K => item V)) (key : K) (i : item V) :
    (m.insert key i).entries.length = (m.erase key).entries.length + 1 := by
  rw [AList.insert_entries]
  rfl

theorem erase_insert_self (m : AList (fun _ : K => item V)) (key : K) (i : item V) :
    (m.insert key i).erase key = m.erase key := by
  apply AList.ext
  show List.kerase key (m.insert key i).entries = List.kerase key m.entries
  rw [AList.insert_entries]
  exact List.kerase_cons_eq rfl

theorem mem_of_lookup_eq_some {m : AList (fun _ : K => item V)} {key : K} {i : item V}
    (h : m.lookup key = some i) : key ∈ m := by
  rw [← AList.lookup_isSome, h]
  rfl

theorem not_mem_of_lookup_eq_none {m : AList (fun _ : K => item V)} {key : K}
    (h : m.lookup key = none) : key ∉ m :=
  AList.lookup_eq_none.1 h

theorem count_keys_insert_self (m : AList (fun _ : K => item V)) (key : K) (i : item V) :
    (m.insert key i).keys.count key = 1 :=
  List.count_eq_one_of_mem (AList.keys_nodup _)
    (AList.mem_keys.1 ((AList.mem_insert m).2 (Or.inl rfl)))

theorem Update_of_none [Inhabited V] (c : TTLCache K V) (key : K) (f : V → V)
    (h : c.items.lookup key = none) : Update c key f = c := by
  simp [Update, index_of_none h]

theorem Update_of_some [Inhabited V] (c : TTLCache K V) (key : K) (f : V → V) (i : item V)
    (h : c.items.lookup key = some i) :
    Update c key f
      = { c with items := c.items.insert key { value := f i.value, expiry := i.expiry } } := by
  simp [Update, index_of_some h]

/-! ## The sweep loop and the iterator loop -/

theorem foldl_sweepStep_entries (clock : K → Time) :
    ∀ (l pre : List (Sigma (fun _ : K => item V))) (m : AList (fun _ : K => item V)),
      m.entries = pre ++ l →
      (l.foldl (fun m e => sweepStep (clock e.1) m e) m).entries
        = pre ++ l.filter (fun e => !e.2.isExpired (clock e.1)) := by
  intro l
  induction l with
  | nil =>
    intro pre m hm
    simpa using hm
  | cons e es ih =>
    intro pre m hm
    have hnd : (pre ++ e :: es).NodupKeys := hm ▸ m.nodupKeys
    have hpre : e.1 ∉ pre.keys := by
      have h1 : (pre ++ e :: es).keys.Nodup := hnd
      simp only [List.keys, List.map_append, List.map_cons] at h1
      intro hmem
      exact (List.nodup_append.1 h1).2.2 hmem (List.mem_cons_self _ _)
    rw [List.foldl_cons]
    cases he : e.2.isExpired (clock e.1) with
    | true =>
      have hstep : sweepStep (clock e.1) m e = m.erase e.1 := by simp [sweepStep, he]
      have hent : (m.erase e.1).entries = pre ++ es := by
        show List.kerase e.1 m.entries = pre ++ es
        rw [hm, List.kerase_append_right hpre, List.kerase_cons_eq rfl]
      rw [hstep, ih pre (m.erase e.1) hent]
      simp [he]
    | false =>
      have hstep : sweepStep (clock e.1) m e = m := by simp [sweepStep, he]
      have hent : m.entries = (pre ++ [e]) ++ es := by simp [hm]
      rw [hstep, ih (pre ++ [e]) m hent]
      simp [he]

theorem sweep_entries (c : TTLCache K V) (clock : K → Time) :
    (sweep c clock).items.entries
      = c.items.entries.filter (fun e => !e.2.isExpired (clock e.1)) := by
  have h := foldl_sweepStep_entries clock c.items.entries [] c.items (by simp)
  simpa [sweep] using h

theorem sweep_lookup (c : TTLCache K V) (clock : K → Time) (key : K) :
    (sweep c clock).items.lookup key
      = (c.items.lookup key).filter (fun i => !i.isExpired (clock key)) := by
  apply Option.ext
  intro i
  constructor
  · intro h
    have h1 : (⟨key, i⟩ : Sigma (fun _ : K => item V)) ∈ (sweep c clock).items.entries :=
      AList.mem_lookup_iff.1 h
    rw [sweep_entries, List.mem_filter] at h1
    exact Option.mem_def.2 (Option.filter_eq_some.2 ⟨AList.mem_lookup_iff.2 h1.1, h1.2⟩)
  · intro h
    have h1 := Option.filter_eq_some.1 (Option.mem_def.1 h)
    apply AList.mem_lookup_iff.2
    rw [sweep_entries, List.mem_filter]
    exact ⟨AList.mem_lookup_iff.1 h1.1, h1.2⟩

theorem value_of_entry [Inhabited V] (m : AList (fun _ : K => item V))
    (e : Sigma (fun _ : K => item V)) (h : e ∈ m.entries) : (index m e.1).1.value = e.2.value := by
  have hl : m.lookup e.1 = some e.2 := AList.mem_lookup_iff.2 h
  rw [index_of_some hl]

end lemmas

/-! ## Expiry on `Get` -/

section claims

variable {K V : Type} [DecidableEq K]

/-- C1 (as stated, refuted): at exactly `t = t0 + d` the claim wants
`found = false`, but `Get` of a key set at time `0` with a TTL of `50` still
returns `(1, true)` at time `50`, because `isExpired` is a strict `After`. -/
theorem get_at_expiry_instant_is_found :
    ((0 : Time) + 50 ≤ 50) ∧
    (Get (SetWithTTL (NewTTL 100 : TTLCache String Int) "a" 1 50 0) "a" 50).1 = (1, true) := by
  decide

/-- C1 (amended): after `SetWithTTL k v d` at time `t0` on any cache, `Get k`
at time `t` returns `(v, true)` whenever `t ≤ t0 + d` (the instant `t0 + d`
included) and `found = false` whenever `t0 + d < t`. -/
theorem get_after_SetWithTTL [Inhabited V] (c : TTLCache K V) (k : K) (v : V) (d : Duration)
    (t0 t : Time) :
    (t ≤ t0 + d → (Get (SetWithTTL c k v d t0) k t).1 = (v, true)) ∧
    (t0 + d < t → (Get (SetWithTTL c k v d t0) k t).1.2 = false) := by
  have hl := lookup_SetWithTTL_self c k v d t0
  constructor
  · intro h
    rw [Get_of_live _ k t _ hl ((isExpired_eq_false_iff _ _).2 h)]
  · intro h
    rw [Get_of_expired _ k t _ hl ((isExpired_eq_true_iff _ _).2 h)]

/-- C1 (amended), at a concrete input: found at times `49` and `50`, not found at `51`. -/
theorem get_after_SetWithTTL_witness :
    (Get (SetWithTTL (NewTTL 100 : TTLCache String Int) "a" 1 50 0) "a" 49).1 = (1, true) ∧
    (Get (SetWithTTL (NewTTL 100 : TTLCache String Int) "a" 1 50 0) "a" 50).1 = (1, true) ∧
    (Get (SetWithTTL (NewTTL 100 : TTLCache String Int) "a" 1 50 0) "a" 51).1.2 = false :=
  ⟨(get_after_SetWithTTL (NewTTL 100) "a" 1 50 0 49).1 (by decide),
   (get_after_SetWithTTL (NewTTL 100) "a" 1 50 0 50).1 (by decide),
   (get_after_SetWithTTL (NewTTL 100) "a" 1 50 0 51).2 (by decide)⟩

/-- C2 (as stated, refuted): after `SetWithTTL "a" 1 50` at time `0`, `Get "a"`
at time `60` reports `found = false` but returns the stored value `1`, not the
zero value `0`; on a cache that never held `"a"` it returns `(0, false)`, so the
two cases differ in the returned value. -/
theorem get_expired_returns_stored_value :
    (Get (SetWithTTL (NewTTL 100 : TTLCache String Int) "a" 1 50 0) "a" 60).1 = (1, false) ∧
    (Get (SetWithTTL (NewTTL 100 : TTLCache String Int) "a" 1 50 0) "a" 60).1 ≠ (0, false) ∧
    (Get (NewTTL 100 : TTLCache String Int) "a" 60).1 = (0, false) := by
  decide

/-- C2 (amended): `Get k` reports `found = false` exactly when `k` is absent or
its entry is expired; for an absent key the returned value is the zero value of
`V`, and for an expired entry it is the value stored in that entry. -/
theorem get_miss_value [Inhabited V] (c : TTLCache K V) (k : K) (now : Time) :
    ((Get c k now).1.2 = false ↔
      (c.items.lookup k = none ∨ ∃ i, c.items.lookup k = some i ∧ i.isExpired now = true)) ∧
    (c.items.lookup k = none → (Get c k now).1 = (default, false)) ∧
    (∀ i, c.items.lookup k = some i → i.isExpired now = true →
      (Get c k now).1 = (i.value, false)) := by
  refine ⟨?_, fun h => by rw [Get_of_none c k now h],
    fun i h he => by rw [Get_of_expired c k now i h he]⟩
  cases h : c.items.lookup k with
  | none => simp [Get_of_none c k now h]
  | some i =>
    cases he : i.isExpired now with
    | false => simp [Get_of_live c k now i h he, he]
    | true => simp [Get_of_expired c k now i h he, he]

/-- C3: `Pop k` reports `found = true` exactly when `k` is stored and its entry
is not expired at `now`, it then returns the stored value, and in every case `k`
is not stored afterwards while every other key keeps its item (value and
expiry) and the default TTL is kept. -/
theorem pop_spec [Inhabited V] (c : TTLCache K V) (k : K) (now : Time) :
    ((Pop c k now).1.2 = true ↔ ∃ i, c.items.lookup k = some i ∧ i.isExpired now = false) ∧
    (∀ i, c.items.lookup k = some i → i.isExpired now = false →
      (Pop c k now).1 = (i.value, true)) ∧
    (Pop c k now).2.items.lookup k = none ∧
    (∀ k2, k2 ≠ k → (Pop c k now).2.items.lookup k2 = c.items.lookup k2) ∧
    (Pop c k now).2.defaultTTL = c.defaultTTL := by
  cases h : c.items.lookup k with
  | none =>
    rw [Pop_of_none c k now h]
    simp [h]
  | some i =>
    rw [Pop_of_some c k now i h]
    refine ⟨by simp, ?_, by simp [AList.lookup_erase], ?_, rfl⟩
    · intro j hj hl
      cases hj
      simp [hl]
    · intro k2 hk
      simp [AList.lookup_erase_ne hk]

/-- C4: for times `t1 ≤ t2`, `Pop k` at `t1` followed by `Get k` at `t2` on the
resulting cache yields the zero value and `found = false`, whatever the cache
held and whatever `Pop` returned. -/
theorem get_after_pop [Inhabited V] (c : TTLCache K V) (k : K) (t1 t2 : Time) (_h : t1 ≤ t2) :
    (Get (Pop c k t1).2 k t2).1 = (default, false) := by
  rw [Get_of_none _ k t2 (pop_lookup_self c k t1)]

/-- C4 at a concrete input: a live entry popped at `10` is not found at `20`. -/
theorem get_after_pop_witness :
    ((10 : Time) ≤ 20) ∧
    (Get (Pop (SetWithTTL (NewTTL 100 : TTLCache String Int) "a" 1 50 0) "a" 10).2 "a" 20).1
      = (0, false) :=
  ⟨by decide, get_after_pop (SetWithTTL (NewTTL 100) "a" 1 50 0) "a" 10 20 (by decide)⟩

/-! ## Writes -/

/-- C5: `Update k f` leaves `Len` unchanged, leaves the item (value and expiry)
of every key other than `k` unchanged, keeps the default TTL, stores `k`
afterwards exactly when it was stored before, and is the identity on a cache
that does not store `k`. -/
theorem update_frame [Inhabited V] (c : TTLCache K V) (k : K) (f : V → V) :
    (Len (Update c k f)).1 = (Len c).1 ∧
    (∀ k2, k2 ≠ k → (Update c k f).items.lookup k2 = c.items.lookup k2) ∧
    (Update c k f).defaultTTL = c.defaultTTL ∧
    (k ∈ (Update c k f).items ↔ k ∈ c.items) ∧
    (c.items.lookup k = none → Update c k f = c) := by
  cases h : c.items.lookup k with
  | none =>
    rw [Update_of_none c k f h]
    simp
  | some i =>
    rw [Update_of_some c k f i h]
    have hm : k ∈ c.items := mem_of_lookup_eq_some h
    refine ⟨length_insert_of_mem c.items k { value := f i.value, expiry := i.expiry } hm,
      ?_, rfl, ?_, by simp⟩
    · intro k2 hk
      exact AList.lookup_insert_ne hk
    · simp [AList.mem_insert, hm]

/-- C6: for times `t1 ≤ t2 ≤ t3` with `t3 ≤ t2 + defaultTTL`, `Set k v1` at
`t1`, `Set k v2` at `t2` and `Get k` at `t3` return `(v2, true)` and leave the
cache as it was after the second `Set`; the entry of `k` is then `v2` with
expiry `t2 + defaultTTL`, `k` occurs once among the keys, and the second `Set`
does not change `Len`. -/
theorem set_set_get [Inhabited V] (c : TTLCache K V) (k : K) (v1 v2 : V) (t1 t2 t3 : Time)
    (_h12 : t1 ≤ t2) (_h23 : t2 ≤ t3) (h3 : t3 ≤ t2 + c.defaultTTL) :
    Get (Set (Set c k v1 t1) k v2 t2) k t3 = ((v2, true), Set (Set c k v1 t1) k v2 t2) ∧
    (Set (Set c k v1 t1) k v2 t2).items.lookup k
      = some { value := v2, expiry := t2 + c.defaultTTL } ∧
    (Set (Set c k v1 t1) k v2 t2).items.keys.count k = 1 ∧
    (Len (Set (Set c k v1 t1) k v2 t2)).1 = (Len (Set c k v1 t1)).1 ∧
    (Len (Set (Set c k v1 t1) k v2 t2)).1 = (Len (Remove c k)).1 + 1 := by
  have hl : (Set (Set c k v1 t1) k v2 t2).items.lookup k
      = some { value := v2, expiry := t2 + c.defaultTTL } :=
    lookup_SetWithTTL_self (Set c k v1 t1) k v2 c.defaultTTL t2
  refine ⟨?_, hl, ?_, ?_, ?_⟩
  · rw [Get_of_live _ k t3 _ hl ((isExpired_eq_false_iff _ _).2 h3)]
  · exact count_keys_insert_self (Set c k v1 t1).items k
      { value := v2, expiry := t2 + c.defaultTTL }
  · exact length_insert_of_mem (Set c k v1 t1).items k
      { value := v2, expiry := t2 + c.defaultTTL }
      (mem_of_lookup_eq_some (lookup_SetWithTTL_self c k v1 c.defaultTTL t1))
  · show ((c.items.insert k { value := v1, expiry := t1 + c.defaultTTL }).insert k
        { value := v2, expiry := t2 + c.defaultTTL }).entries.length
      = (c.items.erase k).entries.length + 1
    rw [length_insert, erase_insert_self]

/-- C6 at a concrete input, the last instant allowed: `t3 = t2 + defaultTTL`. -/
theorem set_set_get_witness :
    Get (Set (Set (NewTTL 100 : TTLCache String Int) "k" 1 5) "k" 2 7) "k" 107
      = ((2, true), Set (Set (NewTTL 100 : TTLCache String Int) "k" 1 5) "k" 2 7) ∧
    (Len (Set (Set (NewTTL 100 : TTLCache String Int) "k" 1 5) "k" 2 7)).1 = 1 :=
  ⟨(set_set_get (NewTTL 100) "k" 1 2 5 7 107 (by decide) (by decide) (by decide)).1, by decide⟩

/-- C7: with a positive default TTL and `t0 ≤ t1 ≤ t0 + defaultTTL`, `Set k v`
at `t0` followed by `Pop k` at `t1` returns `(v, true)`, and a second `Pop k`
at any later time `t2` returns the zero value and `false`. -/
theorem set_pop_pop [Inhabited V] (c : TTLCache K V) (k : K) (v : V) (t0 t1 t2 : Time)
    (_hpos : 0 < c.defaultTTL) (_h01 : t0 ≤ t1) (h1 : t1 ≤ t0 + c.defaultTTL)
    (_h12 : t1 ≤ t2) :
    (Pop (Set c k v t0) k t1).1 = (v, true) ∧
    (Pop (Pop (Set c k v t0) k t1).2 k t2).1 = (default, false) := by
  have hl : (Set c k v t0).items.lookup k = some { value := v, expiry := t0 + c.defaultTTL } :=
    lookup_SetWithTTL_self c k v c.defaultTTL t0
  constructor
  · rw [Pop_of_some _ k t1 _ hl, (isExpired_eq_false_iff _ _).2 h1]
    rfl
  · rw [Pop_of_none _ k t2 (pop_lookup_self _ k t1)]

/-- C7 at the spec's scenario: `Set "x" 10`, `Pop "x" = (10, true)`, `Pop "x" = (0, false)`. -/
theorem set_pop_pop_witness :
    (Pop (Set (NewTTL 100 : TTLCache String Int) "x" 10 0) "x" 1).1 = (10, true) ∧
    (Pop (Pop (Set (NewTTL 100 : TTLCache String Int) "x" 10 0) "x" 1).2 "x" 2).1 = (0, false) :=
  set_pop_pop (NewTTL 100) "x" 10 0 1 2 (by decide) (by decide) (by decide) (by decide)

/-! ## Eviction: `Get` on an expired entry and the sweep -/

/-- C8: if `k` is stored and expired at `now`, `Get k` removes exactly that
entry (`k` is absent afterwards, `Len` goes down by one, every other key keeps
its item, the default TTL is kept); if `k` is absent or its entry is live,
`Get k` leaves the cache unchanged. -/
theorem get_frame [Inhabited V] (c : TTLCache K V) (k : K) (now : Time) :
    (∀ i, c.items.lookup k = some i → i.isExpired now = true →
      (Get c k now).2.items.lookup k = none ∧
      (∀ k2, k2 ≠ k → (Get c k now).2.items.lookup k2 = c.items.lookup k2) ∧
      (Len (Get c k now).2).1 + 1 = (Len c).1 ∧
      (Get c k now).2.defaultTTL = c.defaultTTL) ∧
    ((c.items.lookup k = none ∨ ∃ i, c.items.lookup k = some i ∧ i.isExpired now = false) →
      (Get c k now).2 = c) := by
  constructor
  · intro i h he
    rw [Get_of_expired c k now i h he]
    refine ⟨AList.lookup_erase k c.items, fun k2 hk => AList.lookup_erase_ne hk, ?_, rfl⟩
    exact length_erase_of_mem c.items k (mem_of_lookup_eq_some h)
  · rintro (h | ⟨i, h, hl⟩)
    · rw [Get_of_none c k now h]
    · rw [Get_of_live c k now i h hl]

/-- C9: after a sweep pass whose clock reads `now` at every entry, a key holds
an item exactly when it held that same item (value and expiry) before and the
item was not expired at `now`; the entries are the entries not expired at `now`
in their former order, `Len` is the number of entries not expired at `now`, and
the default TTL is kept. -/
theorem sweep_pass (c : TTLCache K V) (now : Time) :
    (∀ k i, (sweep c (fun _ => now)).items.lookup k = some i ↔
      (c.items.lookup k = some i ∧ i.isExpired now = false)) ∧
    (sweep c (fun _ => now)).items.entries
      = c.items.entries.filter (fun e => !e.2.isExpired now) ∧
    (Len (sweep c (fun _ => now))).1
      = c.items.entries.countP (fun e => !e.2.isExpired now) ∧
    (sweep c (fun _ => now)).defaultTTL = c.defaultTTL := by
  refine ⟨?_, sweep_entries c _, ?_, rfl⟩
  · intro k i
    rw [sweep_lookup, Option.filter_eq_some]
    simp
  · show (sweep c (fun _ => now)).items.entries.length = _
    rw [sweep_entries, List.countP_eq_length_filter]

/-! ## Enumeration -/

/-- C10: `Len` is the number of keys stored (a key is stored when the map
holds an item for it, expired or not); `All` returns exactly `Len` values, the
multiset of which is the multiset of the values held by the stored keys, so
the value of every stored item is in it whatever its expiry; and neither
operation changes the cache. -/
theorem len_all_spec [Inhabited V] (c : TTLCache K V) :
    (Len c).1 = c.items.keys.toFinset.card ∧
    (∀ k, k ∈ c.items.keys.toFinset ↔ ∃ i, c.items.lookup k = some i) ∧
    (All c).1.length = (Len c).1 ∧
    ((All c).1 : Multiset V)
      = (c.items.keys.toFinset).val.map (fun k => (index c.items k).1.value) ∧
    (∀ k i, c.items.lookup k = some i → i.value ∈ (All c).1) ∧
    (Len c).2 = c ∧ (All c).2 = c := by
  refine ⟨?_, ?_, ?_, ?_, ?_, rfl, ?_⟩
  · show c.items.entries.length = _
    rw [length_entries_eq_keys, List.toFinset_card_of_nodup c.items.keys_nodup]
  · intro k
    rw [List.mem_toFinset, ← AList.mem_keys, ← AList.lookup_isSome, Option.isSome_iff_exists]
  · rw [All_eq]
    simp [Len]
  · rw [All_eq, List.toFinset_val, List.dedup_eq_self.2 c.items.keys_nodup]
    show ((c.items.entries.map (fun e => e.2.value) : List V) : Multiset V)
      = ((c.items.keys.map (fun k => (index c.items k).1.value) : List V) : Multiset V)
    congr 1
    rw [AList.keys, List.keys, List.map_map]
    exact List.map_congr_left (fun e he => (value_of_entry c.items e he).symm)
  · intro k i h
    rw [All_eq]
    exact List.mem_map.2 ⟨⟨k, i⟩, AList.mem_lookup_iff.1 h, rfl⟩
  · rw [All_eq]

/-! ## `Update` and `Remove` -/

/-- C11: when `k` is stored with an item of value `v` and expiry `e`, then
after `Update k f` the item of `k` has value `f v` and the same expiry `e`,
whether or not the item is expired; and when the item was expired at a time `t`
before the update, a `Get k` at any time `t2 ≥ t` after the update reports
`found = false`. -/
theorem update_keeps_expiry [Inhabited V] (c : TTLCache K V) (k : K) (f : V → V) (i : item V)
    (h : c.items.lookup k = some i) :
    (Update c k f).items.lookup k = some { value := f i.value, expiry := i.expiry } ∧
    (∀ t t2 : Time, i.isExpired t = true → t ≤ t2 →
      (Get (Update c k f) k t2).1.2 = false) := by
  have hl : (Update c k f).items.lookup k = some { value := f i.value, expiry := i.expiry } := by
    rw [Update_of_some c k f i h]
    exact AList.lookup_insert c.items
  refine ⟨hl, ?_⟩
  intro t t2 he ht
  have he2 : ({ value := f i.value, expiry := i.expiry } : item V).isExpired t2 = true := by
    rw [isExpired_eq_true_iff] at he ⊢
    exact lt_of_lt_of_le he ht
  rw [Get_of_expired _ k t2 _ hl he2]

/-- C11 at a concrete input: an entry set at `0` with TTL `50` and updated by
`(· + 1)` holds `2` with expiry `50`, and `Get` at `60` does not find it. -/
theorem update_keeps_expiry_witness :
    (Update (SetWithTTL (NewTTL 100 : TTLCache String Int) "a" 1 50 0) "a" (fun v => v + 1)).items.lookup
        "a"
      = some { value := 2, expiry := 50 } ∧
    (Get (Update (SetWithTTL (NewTTL 100 : TTLCache String Int) "a" 1 50 0) "a" (fun v => v + 1))
        "a" 60).1.2
      = false :=
  ⟨(update_keeps_expiry (SetWithTTL (NewTTL 100 : TTLCache String Int) "a" 1 50 0) "a"
      (fun v => v + 1) { value := 1, expiry := 50 } (by decide)).1,
   (update_keeps_expiry (SetWithTTL (NewTTL 100 : TTLCache String Int) "a" 1 50 0) "a"
      (fun v => v + 1) { value := 1, expiry := 50 } (by decide)).2 60 60 (by decide) (by decide)⟩

/-- C12: `Remove k` is a total function of the cache (it has no failure
result); afterwards `k` is not stored, every other key keeps its item (value
and expiry) and the default TTL is kept; when `k` was not stored the cache is
unchanged, and when it was stored `Len` goes down by exactly one. -/
theorem remove_spec (c : TTLCache K V) (k : K) :
    (Remove c k).items.lookup k = none ∧
    (∀ k2, k2 ≠ k → (Remove c k).items.lookup k2 = c.items.lookup k2) ∧
    (Remove c k).defaultTTL = c.defaultTTL ∧
    (c.items.lookup k = none → Remove c k = c) ∧
    ((∃ i, c.items.lookup k = some i) → (Len (Remove c k)).1 + 1 = (Len c).1) := by
  refine ⟨AList.lookup_erase k c.items, fun k2 hk => AList.lookup_erase_ne hk, rfl, ?_, ?_⟩
  · intro h
    show ({ c with items := c.items.erase k } : TTLCache K V) = c
    rw [erase_of_not_mem c.items k (not_mem_of_lookup_eq_none h)]
  · rintro ⟨i, h⟩
    exact length_erase_of_mem c.items k (mem_of_lookup_eq_some h)

end claims

end cache

namespace font_service

/-! ## `ExtractFamilyAndVariant` -/

theorem splitChars_eq (sep : Char) (cs : List Char) :
    strings.splitChars sep cs
      = cs.takeWhile (fun c => decide (c ≠ sep)) ::
        (match cs.dropWhile (fun c => decide (c ≠ sep)) with
          | [] => []
          | _ :: r => strings.splitChars sep r) := by
  induction cs with
  | nil => simp [strings.splitChars]
  | cons c cs ih =>
    by_cases h : c = sep
    · simp [strings.splitChars, h]
    · rw [strings.splitChars, if_neg h, ih]
      simp [h]

theorem ExtractFamilyAndVariant_eq (s : String) :
    ExtractFamilyAndVariant s = some {
      Family := String.mk (s.data.takeWhile (fun c => decide (c ≠ ':'))),
      Variant := String.mk
        (((s.data.dropWhile (fun c => decide (c ≠ ':'))).drop 1).takeWhile
          (fun c => decide (c ≠ ':'))) } := by
  unfold ExtractFamilyAndVariant strings.Split
  rw [splitChars_eq]
  cases h : s.data.dropWhile (fun c => decide (c ≠ ':')) with
  | nil => simp
  | cons d r =>
    simp only []
    rw [splitChars_eq]
    simp

theorem takeWhile_append_sep (sep : Char) (l r : List Char) (h : sep ∉ l) :
    (l ++ sep :: r).takeWhile (fun c => decide (c ≠ sep)) = l := by
  induction l with
  | nil => simp
  | cons c cs ih =>
    have hc : c ≠ sep := fun e => h (e ▸ List.mem_cons_self _ _)
    have hcs : sep ∉ cs := fun e => h (List.mem_cons_of_mem _ e)
    rw [List.cons_append, List.takeWhile_cons_of_pos (by simpa using hc), ih hcs]

theorem dropWhile_append_sep (sep : Char) (l r : List Char) (h : sep ∉ l) :
    (l ++ sep :: r).dropWhile (fun c => decide (c ≠ sep)) = sep :: r := by
  induction l with
  | nil => simp
  | cons c cs ih =>
    have hc : c ≠ sep := fun e => h (e ▸ List.mem_cons_self _ _)
    have hcs : sep ∉ cs := fun e => h (List.mem_cons_of_mem _ e)
    rw [List.cons_append, List.dropWhile_cons_of_pos (by simpa using hc), ih hcs]

theorem takeWhile_of_not_mem (sep : Char) (l : List Char) (h : sep ∉ l) :
    l.takeWhile (fun c => decide (c ≠ sep)) = l := by
  induction l with
  | nil => simp
  | cons c cs ih =>
    have hc : c ≠ sep := fun e => h (e ▸ List.mem_cons_self _ _)
    have hcs : sep ∉ cs := fun e => h (List.mem_cons_of_mem _ e)
    rw [List.takeWhile_cons_of_pos (by simpa using hc), ih hcs]

theorem FullName_data (f : FontAndVariant) :
    f.FullName.data = f.Family.data ++ ':' :: f.Variant.data := by
  simp [FontAndVariant.FullName, String.data_append]

/-- C17: `ExtractFamilyAndVariant s` never fails (it returns a result for every
string `s`): `Family` is the text of `s` before the first `:` and `Variant` is
the text between the first and the second `:`, which is empty when `s` has no
`:`; and for a family and a variant that contain no `:`, extracting from
`FullName` gives back that family and variant. -/
theorem extract_family_and_variant (s : String) :
    ExtractFamilyAndVariant s = some {
      Family := String.mk (s.data.takeWhile (fun c => decide (c ≠ ':'))),
      Variant := String.mk
        (((s.data.dropWhile (fun c => decide (c ≠ ':'))).drop 1).takeWhile
          (fun c => decide (c ≠ ':'))) } ∧
    (':' ∉ s.data → ExtractFamilyAndVariant s = some { Family := s, Variant := "" }) ∧
    (∀ family variant : String, ':' ∉ family.data → ':' ∉ variant.data →
      ExtractFamilyAndVariant (FontAndVariant.FullName { Family := family, Variant := variant })
        = some { Family := family, Variant := variant }) := by
  refine ⟨ExtractFamilyAndVariant_eq s, ?_, ?_⟩
  · intro h
    rw [ExtractFamilyAndVariant_eq, takeWhile_of_not_mem ':' s.data h]
    have hd : s.data.dropWhile (fun c => decide (c ≠ ':')) = [] := by
      rw [List.dropWhile_eq_nil_iff]
      intro c hc
      have hne : c ≠ ':' := fun e => h (e ▸ hc)
      simpa using hne
    rw [hd]
    rfl
  · intro family variant hf hv
    rw [ExtractFamilyAndVariant_eq, FullName_data]
    simp only []
    rw [takeWhile_append_sep ':' _ _ hf, dropWhile_append_sep ':' _ _ hf]
    simp only [List.drop_succ_cons, List.drop_zero]
    rw [takeWhile_of_not_mem ':' _ hv]

/-- C17 at concrete inputs: a full name with two separators, and the round
trip for the family `Open Sans` and the variant `700italic`. -/
theorem extract_family_and_variant_witness :
    ExtractFamilyAndVariant "Open Sans:700italic:x"
      = some { Family := "Open Sans", Variant := "700italic" } ∧
    ExtractFamilyAndVariant
        (FontAndVariant.FullName { Family := "Open Sans", Variant := "700italic" })
      = some { Family := "Open Sans", Variant := "700italic" } :=
  ⟨by decide,
   (extract_family_and_variant "").2.2 "Open Sans" "700italic" (by decide) (by decide)⟩

end font_service


namespace sort

/-! ## The insertion sort meets the contract of `sort.Slice` -/

theorem insertionStep_perm {α : Type} (less : α → α → Bool) (sorted : List α) (x : α) :
    (sorted.takeWhile (less x) ++ x :: sorted.dropWhile (less x)).Perm (x :: sorted) := by
  have h := List.takeWhile_append_dropWhile (less x) sorted
  calc (sorted.takeWhile (less x) ++ x :: sorted.dropWhile (less x)).Perm
        (x :: (sorted.takeWhile (less x) ++ sorted.dropWhile (less x))) := List.perm_middle
    _ = x :: sorted := by rw [h]

theorem foldl_insertionStep_perm {α : Type} (less : α → α → Bool) (data : List α) :
    ∀ sorted : List α,
      (data.foldl (fun sorted x => sorted.takeWhile (less x) ++ x :: sorted.dropWhile (less x))
        sorted).Perm (data ++ sorted) := by
  induction data with
  | nil => intro sorted; simp
  | cons x xs ih =>
    intro sorted
    rw [List.foldl_cons]
    refine (ih _).trans ?_
    refine ((insertionStep_perm less sorted x).append_left xs).trans ?_
    simp

theorem insertionSort_perm {α : Type} (less : α → α → Bool) (data : List α) :
    (insertionSort less data).Perm data := by
  unfold insertionSort
  refine (List.reverse_perm _).trans ?_
  simpa using foldl_insertionStep_perm less data []

theorem insertionStep_sorted {α : Type} (key : α → Int) (sorted : List α) (x : α)
    (h : sorted.Pairwise (fun a b => key b ≤ key a)) :
    (sorted.takeWhile (fun y => decide (key x < key y)) ++
      x :: sorted.dropWhile (fun y => decide (key x < key y))).Pairwise
        (fun a b => key b ≤ key a) := by
  have hsplit := List.takeWhile_append_dropWhile (fun y => decide (key x < key y)) sorted
  rw [← hsplit] at h
  obtain ⟨htw, hdw, hcross⟩ := List.pairwise_append.1 h
  have hbig : ∀ a ∈ sorted.takeWhile (fun y => decide (key x < key y)), key x < key a := by
    intro a ha
    simpa using List.mem_takeWhile_imp ha
  have hsmall : ∀ b ∈ sorted.dropWhile (fun y => decide (key x < key y)), key b ≤ key x := by
    intro b hb
    cases hd : sorted.dropWhile (fun y => decide (key x < key y)) with
    | nil => rw [hd] at hb; cases hb
    | cons d ds =>
      have hhead : ¬ (key x < key d) := by
        have := List.head_dropWhile_not (fun y => decide (key x < key y)) sorted
          (by rw [hd]; simp)
        simpa [hd] using this
      rw [hd] at hb hdw
      rcases List.mem_cons.1 hb with rfl | hb2
      · exact not_lt.1 hhead
      · exact le_trans ((List.pairwise_cons.1 hdw).1 b hb2) (not_lt.1 hhead)
  refine List.pairwise_append.2 ⟨htw, List.pairwise_cons.2 ⟨hsmall, hdw⟩, ?_⟩
  intro a ha b hb
  rcases List.mem_cons.1 hb with rfl | hb2
  · exact le_of_lt (hbig a ha)
  · exact hcross a ha b hb2

theorem foldl_insertionStep_sorted {α : Type} (key : α → Int) (data : List α) :
    ∀ sorted : List α, sorted.Pairwise (fun a b => key b ≤ key a) →
      (data.foldl (fun sorted x => sorted.takeWhile (fun y => decide (key x < key y)) ++
          x :: sorted.dropWhile (fun y => decide (key x < key y))) sorted).Pairwise
        (fun a b => key b ≤ key a) := by
  induction data with
  | nil => intro sorted h; simpa using h
  | cons x xs ih =>
    intro sorted h
    rw [List.foldl_cons]
    exact ih _ (insertionStep_sorted key sorted x h)

theorem insertionSort_sorts {α : Type} (key : α → Int) :
    Sorts (fun a b => decide (key a < key b))
      (insertionSort (fun a b => decide (key a < key b))) := by
  intro data
  refine ⟨insertionSort_perm _ data, ?_⟩
  unfold insertionSort
  rw [List.pairwise_reverse]
  have h := foldl_insertionStep_sorted key data [] List.Pairwise.nil
  refine h.imp ?_
  intro a b hab
  simpa using hab

end sort

namespace font_service

/-! ## `sortVariants` -/

theorem sortVariantsStep_bare (b : VariantBuckets) (v : FontFamilyVariant)
    (hi : strings.Contains v.Name "italic" = true) (hn : v.Name = "italic") :
    sortVariantsStep b v = { b with italicVariants := [v] ++ b.italicVariants } := by
  unfold sortVariantsStep
  rw [if_pos hi, if_pos hn]

theorem sortVariantsStep_italic (b : VariantBuckets) (v : FontFamilyVariant)
    (hi : strings.Contains v.Name "italic" = true) (hn : ¬ v.Name = "italic") :
    sortVariantsStep b v = { b with italicVariants := b.italicVariants ++ [v] } := by
  unfold sortVariantsStep
  rw [if_pos hi, if_neg hn]

theorem sortVariantsStep_regular (b : VariantBuckets) (v : FontFamilyVariant)
    (hi : ¬ strings.Contains v.Name "italic" = true) (hn : v.Name = "regular") :
    sortVariantsStep b v = { b with regularVariants := b.regularVariants ++ [v] } := by
  unfold sortVariantsStep
  rw [if_neg hi, if_pos hn]

theorem sortVariantsStep_other (b : VariantBuckets) (v : FontFamilyVariant)
    (hi : ¬ strings.Contains v.Name "italic" = true) (hn : ¬ v.Name = "regular") :
    sortVariantsStep b v = { b with nonRegularVariants := b.nonRegularVariants ++ [v] } := by
  unfold sortVariantsStep
  rw [if_neg hi, if_neg hn]

theorem foldl_sortVariantsStep (variants : List FontFamilyVariant) :
    ∀ b : VariantBuckets,
      (variants.foldl sortVariantsStep b).regularVariants
        = b.regularVariants ++ variants.filter
            (fun v => !strings.Contains v.Name "italic" && decide (v.Name = "regular")) ∧
      (variants.foldl sortVariantsStep b).nonRegularVariants
        = b.nonRegularVariants ++ variants.filter
            (fun v => !strings.Contains v.Name "italic" && !decide (v.Name = "regular")) ∧
      ((variants.foldl sortVariantsStep b).italicVariants).Perm
        (b.italicVariants ++ variants.filter (fun v => strings.Contains v.Name "italic")) := by
  induction variants with
  | nil => intro b; simp
  | cons v vs ih =>
    intro b
    rw [List.foldl_cons]
    obtain ⟨h1, h2, h3⟩ := ih (sortVariantsStep b v)
    rw [h1, h2]
    by_cases hi : strings.Contains v.Name "italic" = true
    · have e1 : (!strings.Contains v.Name "italic" && decide (v.Name = "regular")) = false := by
        rw [hi]; rfl
      have e2 : (!strings.Contains v.Name "italic" && !decide (v.Name = "regular")) = false := by
        rw [hi]; rfl
      simp only [List.filter_cons, e1, e2, hi, if_true, if_false, Bool.false_eq_true]
      by_cases hn : v.Name = "italic"
      · rw [sortVariantsStep_bare b v hi hn] at h3 ⊢
        refine ⟨rfl, rfl, h3.trans ?_⟩
        simp only [List.singleton_append, List.cons_append]
        exact List.perm_middle.symm
      · rw [sortVariantsStep_italic b v hi hn] at h3 ⊢
        refine ⟨rfl, rfl, h3.trans ?_⟩
        simp
    · have hi2 : strings.Contains v.Name "italic" = false := by simpa using hi
      by_cases hn : v.Name = "regular"
      · have hd : decide (v.Name = "regular") = true := decide_eq_true hn
        simp only [List.filter_cons, hi2, hd, Bool.not_false, Bool.not_true, Bool.and_true,
          Bool.and_false, if_true, if_false, Bool.false_eq_true]
        rw [sortVariantsStep_regular b v hi hn] at h3 ⊢
        exact ⟨by simp, rfl, h3⟩
      · have hd : decide (v.Name = "regular") = false := decide_eq_false hn
        simp only [List.filter_cons, hi2, hd, Bool.not_false, Bool.not_true, Bool.and_true,
          Bool.and_false, if_true, if_false, Bool.false_eq_true]
        rw [sortVariantsStep_other b v hi hn] at h3 ⊢
        exact ⟨rfl, by simp, h3⟩

end font_service

namespace fmt

/-! ## What `Sscanf` accepts -/

theorem skipSpace_some : ∀ (l r : List Char), skipSpace l = some r →
    ∃ spaces, l = spaces ++ r ∧ ∀ c ∈ spaces, isSpace c = true := by
  intro l
  induction l with
  | nil =>
    intro r h
    simp only [skipSpace, Option.some.injEq] at h
    exact ⟨[], by simp [← h], by simp⟩
  | cons c cs ih =>
    intro r h
    rw [skipSpace] at h
    split at h
    · rename_i hcr
      obtain ⟨sp, hsp, hall⟩ := ih r h
      have hc : c = Char.ofNat 13 := by
        simp only [Bool.and_eq_true, decide_eq_true_eq] at hcr
        exact hcr.1
      refine ⟨c :: sp, by rw [hsp]; rfl, ?_⟩
      intro d hd
      rcases List.mem_cons.1 hd with rfl | hd2
      · rw [hc]; decide
      · exact hall d hd2
    · split at h
      · cases h
      · split at h
        · simp only [Option.some.injEq] at h
          exact ⟨[], by simp [← h], by simp⟩
        · rename_i hsp0
          obtain ⟨sp, hsp, hall⟩ := ih r h
          refine ⟨c :: sp, by rw [hsp]; rfl, ?_⟩
          intro d hd
          rcases List.mem_cons.1 hd with rfl | hd2
          · simpa using hsp0
          · exact hall d hd2

theorem scanNumber_some (negative : Bool) (afterSign : List Char) (num : Int)
    (rest : List Char) (h : scanNumber negative afterSign = some (num, rest)) :
    ∃ digits, afterSign = digits ++ rest ∧ digits ≠ [] ∧ ∀ c ∈ digits, c.isDigit = true := by
  unfold scanNumber at h
  simp only at h
  by_cases hE : (afterSign.takeWhile Char.isDigit).isEmpty = true
  · rw [if_pos hE] at h
    cases h
  · rw [if_neg hE] at h
    have hrest : rest = afterSign.dropWhile Char.isDigit := by
      cases negative with
      | true =>
        simp only [if_true] at h
        split at h
        · simp only [Option.some.injEq, Prod.mk.injEq] at h
          exact h.2.symm
        · cases h
      | false =>
        simp only [Bool.false_eq_true, if_false] at h
        split at h
        · simp only [Option.some.injEq, Prod.mk.injEq] at h
          exact h.2.symm
        · cases h
    refine ⟨afterSign.takeWhile Char.isDigit, ?_, ?_, fun d hd => List.mem_takeWhile_imp hd⟩
    · rw [hrest, List.takeWhile_append_dropWhile]
    · intro he
      rw [he] at hE
      exact hE rfl

theorem scanInt_some (input : List Char) (num : Int) (rest : List Char)
    (h : scanInt input = some (num, rest)) :
    ∃ spaces sign digits, input = spaces ++ sign ++ digits ++ rest ∧
      (∀ c ∈ spaces, isSpace c = true) ∧ (sign = [] ∨ sign = ['+'] ∨ sign = ['-']) ∧
      digits ≠ [] ∧ ∀ c ∈ digits, c.isDigit = true := by
  unfold scanInt at h
  split at h
  · cases h
  · cases h
  · rename_i c cs hskip
    obtain ⟨sp, hsp, hall⟩ := skipSpace_some input (c :: cs) hskip
    by_cases hplus : c = '+'
    · rw [if_pos hplus] at h
      obtain ⟨digits, hd, hne, hdig⟩ := scanNumber_some false cs num rest h
      exact ⟨sp, ['+'], digits, by rw [hsp, hplus, hd]; simp, hall, Or.inr (Or.inl rfl),
        hne, hdig⟩
    · rw [if_neg hplus] at h
      by_cases hminus : c = '-'
      · rw [if_pos hminus] at h
        obtain ⟨digits, hd, hne, hdig⟩ := scanNumber_some true cs num rest h
        exact ⟨sp, ['-'], digits, by rw [hsp, hminus, hd]; simp, hall, Or.inr (Or.inr rfl),
          hne, hdig⟩
      · rw [if_neg hminus] at h
        obtain ⟨digits, hd, hne, hdig⟩ := scanNumber_some false (c :: cs) num rest h
        exact ⟨sp, [], digits, by rw [hsp, hd]; simp, hall, Or.inl rfl, hne, hdig⟩

theorem SscanfIntItalic_some (name : String) (num : Int) (h : SscanfIntItalic name = some num) :
    ∃ spaces sign digits rest, name.data = spaces ++ sign ++ digits ++ "italic".data ++ rest ∧
      (∀ c ∈ spaces, isSpace c = true) ∧ (sign = [] ∨ sign = ['+'] ∨ sign = ['-']) ∧
      digits ≠ [] ∧ ∀ c ∈ digits, c.isDigit = true := by
  unfold SscanfIntItalic at h
  split at h
  · cases h
  · rename_i input hskip
    split at h
    · cases h
    · rename_i n rest hscan
      split at h
      · rename_i hpre
        obtain ⟨sp1, hsp1, hall1⟩ := skipSpace_some name.data input hskip
        obtain ⟨sp2, sign, digits, hin, hall2, hsign, hdig, hdigits⟩ :=
          scanInt_some input n rest hscan
        obtain ⟨tail, htail⟩ := hpre
        refine ⟨sp1 ++ sp2, sign, digits, tail, ?_, ?_, hsign, hdig, hdigits⟩
        · rw [hsp1, hin, ← htail]
          simp [List.append_assoc]
        · intro c hc
          rcases List.mem_append.1 hc with h1 | h2
          · exact hall1 c h1
          · exact hall2 c h2
      · cases h

/-! ## What `Sscanf` returns on a number followed by `italic` -/


theorem toNat_of_isDigit (c : Char) (h : c.isDigit = true) : 48 ≤ c.toNat ∧ c.toNat ≤ 57 := by
  simp only [Char.isDigit, Bool.and_eq_true, decide_eq_true_eq, ge_iff_le] at h
  have h1 : (48 : UInt32).toNat ≤ c.val.toNat := h.1
  have h2 : c.val.toNat ≤ (57 : UInt32).toNat := h.2
  exact ⟨h1, h2⟩

theorem isSpace_of_isDigit (c : Char) (h : c.isDigit = true) : isSpace c = false := by
  obtain ⟨h1, h2⟩ := toNat_of_isDigit c h
  simp only [isSpace]
  simp
  omega

theorem skipSpace_cons_of_not_space (c : Char) (cs : List Char) (h : isSpace c = false) :
    skipSpace (c :: cs) = some (c :: cs) := by
  have h13 : c ≠ Char.ofNat 13 := by
    rintro rfl
    revert h
    decide
  have h10 : c ≠ Char.ofNat 10 := by
    rintro rfl
    revert h
    decide
  rw [skipSpace]
  simp [h13, h10, h]

theorem digitsValue_eq_ofDigits (digits : List Char) :
    digitsValue digits = Nat.ofDigits 10 (digits.reverse.map (fun c => c.toNat - 48)) := by
  induction digits using List.reverseRecOn with
  | nil => simp [digitsValue]
  | append_singleton l d ih =>
    have hstep : digitsValue (l ++ [d]) = 10 * digitsValue l + (d.toNat - 48) := by
      simp [digitsValue, List.foldl_append]
    rw [hstep, ih]
    simp [Nat.ofDigits_cons]
    omega

theorem takeWhile_digits (digits tail : List Char) (hd : ∀ c ∈ digits, c.isDigit = true)
    (ht : ∀ c ∈ tail.head?, c.isDigit = false) :
    (digits ++ tail).takeWhile Char.isDigit = digits ∧
    (digits ++ tail).dropWhile Char.isDigit = tail := by
  induction digits with
  | nil =>
    cases tail with
    | nil => simp
    | cons t ts =>
      have h := ht t (by simp)
      simp [h]
  | cons d ds ih =>
    have hdd : d.isDigit = true := hd d (List.mem_cons_self _ _)
    obtain ⟨h1, h2⟩ := ih (fun c hc => hd c (List.mem_cons_of_mem _ hc))
    simp [hdd, h1, h2]

theorem scanNumber_unsigned (digits rest : List Char) (hne : digits ≠ [])
    (hd : ∀ c ∈ digits, c.isDigit = true) (hv : digitsValue digits < 2 ^ 63) :
    scanNumber false (digits ++ ("italic".data ++ rest))
      = some ((digitsValue digits : Int), "italic".data ++ rest) := by
  obtain ⟨h1, h2⟩ := takeWhile_digits digits ("italic".data ++ rest) hd
    (by intro c hc; simp at hc; subst hc; decide)
  have hE : digits.isEmpty = false := by
    cases digits with
    | nil => exact absurd rfl hne
    | cons d ds => rfl
  unfold scanNumber
  simp only [h1, h2, hE, Bool.false_eq_true, if_false, if_pos hv]

theorem scanNumber_negative (digits rest : List Char) (hne : digits ≠ [])
    (hd : ∀ c ∈ digits, c.isDigit = true) (hv : digitsValue digits ≤ 2 ^ 63) :
    scanNumber true (digits ++ ("italic".data ++ rest))
      = some (-(digitsValue digits : Int), "italic".data ++ rest) := by
  obtain ⟨h1, h2⟩ := takeWhile_digits digits ("italic".data ++ rest) hd
    (by intro c hc; simp at hc; subst hc; decide)
  have hE : digits.isEmpty = false := by
    cases digits with
    | nil => exact absurd rfl hne
    | cons d ds => rfl
  unfold scanNumber
  simp only [h1, h2, hE, Bool.false_eq_true, if_false, if_true, if_pos hv]

theorem Sscanf_of_scanInt (name : String) (num : Int) (rest : List Char)
    (hsp : skipSpace name.data = some name.data)
    (hscan : scanInt name.data = some (num, "italic".data ++ rest)) :
    SscanfIntItalic name = some num := by
  unfold SscanfIntItalic
  simp only [hsp, hscan]
  rw [if_pos (List.prefix_append _ _)]

theorem Sscanf_unsigned (digits rest : List Char) (hne : digits ≠ [])
    (hd : ∀ c ∈ digits, c.isDigit = true) (hv : digitsValue digits < 2 ^ 63) :
    SscanfIntItalic (String.mk (digits ++ ("italic".data ++ rest)))
      = some (digitsValue digits : Int) := by
  have hnum := scanNumber_unsigned digits rest hne hd hv
  cases digits with
  | nil => exact absurd rfl hne
  | cons d ds =>
    have hdd : d.isDigit = true := hd d (List.mem_cons_self _ _)
    have hsp := skipSpace_cons_of_not_space d (ds ++ ("italic".data ++ rest))
      (isSpace_of_isDigit d hdd)
    have hplus : d ≠ '+' := by rintro rfl; revert hdd; decide
    have hminus : d ≠ '-' := by rintro rfl; revert hdd; decide
    apply Sscanf_of_scanInt _ _ rest hsp
    show scanInt (d :: (ds ++ ("italic".data ++ rest))) = _
    unfold scanInt
    simp only [hsp, if_neg hplus, if_neg hminus]
    exact hnum

theorem Sscanf_unsigned_overflow (digits rest : List Char) (hne : digits ≠ [])
    (hd : ∀ c ∈ digits, c.isDigit = true) (hv : 2 ^ 63 ≤ digitsValue digits) :
    SscanfIntItalic (String.mk (digits ++ ("italic".data ++ rest))) = none := by
  obtain ⟨h1, h2⟩ := takeWhile_digits digits ("italic".data ++ rest) hd
    (by intro c hc; simp at hc; subst hc; decide)
  have hnum : scanNumber false (digits ++ ("italic".data ++ rest)) = none := by
    have hE : digits.isEmpty = false := by
      cases digits with
      | nil => exact absurd rfl hne
      | cons d ds => rfl
    unfold scanNumber
    simp only [h1, h2, hE, Bool.false_eq_true, if_false, if_neg (not_lt.2 hv)]
  cases digits with
  | nil => exact absurd rfl hne
  | cons d ds =>
    have hdd : d.isDigit = true := hd d (List.mem_cons_self _ _)
    have hsp := skipSpace_cons_of_not_space d (ds ++ ("italic".data ++ rest))
      (isSpace_of_isDigit d hdd)
    have hplus : d ≠ '+' := by rintro rfl; revert hdd; decide
    have hminus : d ≠ '-' := by rintro rfl; revert hdd; decide
    have hscan : scanInt (d :: (ds ++ ("italic".data ++ rest))) = none := by
      unfold scanInt
      simp only [hsp, if_neg hplus, if_neg hminus]
      exact hnum
    unfold SscanfIntItalic
    show (match skipSpace (d :: (ds ++ ("italic".data ++ rest))) with
      | none => none
      | some input =>
        match scanInt input with
        | none => none
        | some (num, rest) => if "italic".data <+: rest then some num else none) = none
    rw [hsp]
    simp only [hscan]

theorem Sscanf_plus (digits rest : List Char) (hne : digits ≠ [])
    (hd : ∀ c ∈ digits, c.isDigit = true) (hv : digitsValue digits < 2 ^ 63) :
    SscanfIntItalic (String.mk ('+' :: (digits ++ ("italic".data ++ rest))))
      = some (digitsValue digits : Int) := by
  have hsp := skipSpace_cons_of_not_space '+' (digits ++ ("italic".data ++ rest)) (by decide)
  apply Sscanf_of_scanInt _ _ rest hsp
  show scanInt ('+' :: (digits ++ ("italic".data ++ rest))) = _
  unfold scanInt
  simp only [hsp, if_true]
  exact scanNumber_unsigned digits rest hne hd hv

theorem Sscanf_minus (digits rest : List Char) (hne : digits ≠ [])
    (hd : ∀ c ∈ digits, c.isDigit = true) (hv : digitsValue digits ≤ 2 ^ 63) :
    SscanfIntItalic (String.mk ('-' :: (digits ++ ("italic".data ++ rest))))
      = some (-(digitsValue digits : Int)) := by
  have hsp := skipSpace_cons_of_not_space '-' (digits ++ ("italic".data ++ rest)) (by decide)
  have hne2 : ¬ ('-' = '+') := by decide
  apply Sscanf_of_scanInt _ _ rest hsp
  show scanInt ('-' :: (digits ++ ("italic".data ++ rest))) = _
  unfold scanInt
  simp only [hsp, if_neg hne2, if_true]
  exact scanNumber_negative digits rest hne hd hv

end fmt

namespace font_service

theorem filter3_perm {α : Type} (A B C : α → Bool)
    (h : ∀ v, (A v = true ∧ B v = false ∧ C v = false) ∨
      (A v = false ∧ B v = true ∧ C v = false) ∨ (A v = false ∧ B v = false ∧ C v = true)) :
    ∀ l : List α, (l.filter A ++ l.filter B ++ l.filter C).Perm l := by
  intro l
  induction l with
  | nil => simp
  | cons v vs ih =>
    rcases h v with ⟨ha, hb, hc⟩ | ⟨ha, hb, hc⟩ | ⟨ha, hb, hc⟩
    · simp only [List.filter_cons, ha, hb, hc, if_true, if_false, Bool.false_eq_true,
        List.cons_append]
      exact ih.cons v
    · simp only [List.filter_cons, ha, hb, hc, if_true, if_false, Bool.false_eq_true]
      refine List.Perm.trans ?_ (ih.cons v)
      simp only [List.append_assoc, List.cons_append]
      exact List.perm_middle
    · simp only [List.filter_cons, ha, hb, hc, if_true, if_false, Bool.false_eq_true]
      refine List.Perm.trans ?_ (ih.cons v)
      exact List.perm_middle

theorem regular_has_no_italic : strings.Contains "regular" "italic" = false := by
  decide

theorem filter_regular (variants : List FontFamilyVariant) :
    variants.filter (fun v => !strings.Contains v.Name "italic" && decide (v.Name = "regular"))
      = variants.filter (fun v => decide (v.Name = "regular")) := by
  apply List.filter_congr
  intro v _
  by_cases hn : v.Name = "regular"
  · rw [hn, regular_has_no_italic]
    rfl
  · simp [hn]

theorem sortVariants_eq (sortSlice : List FontFamilyVariant → List FontFamilyVariant)
    (variants : List FontFamilyVariant) :
    ∃ bucket, bucket.Perm (variants.filter (fun v => strings.Contains v.Name "italic")) ∧
      sortVariants sortSlice variants
        = variants.filter (fun v => decide (v.Name = "regular")) ++
          variants.filter
            (fun v => !strings.Contains v.Name "italic" && !decide (v.Name = "regular")) ++
          sortSlice bucket := by
  obtain ⟨h1, h2, h3⟩ := foldl_sortVariantsStep variants
    { italicVariants := [], regularVariants := [], nonRegularVariants := [] }
  refine ⟨_, by simpa using h3, ?_⟩
  unfold sortVariants
  simp only
  rw [h1, h2, filter_regular]
  simp

theorem variants_split_perm (variants : List FontFamilyVariant) :
    (variants.filter (fun v => decide (v.Name = "regular")) ++
      variants.filter
        (fun v => !strings.Contains v.Name "italic" && !decide (v.Name = "regular")) ++
      variants.filter (fun v => strings.Contains v.Name "italic")).Perm variants := by
  rw [← filter_regular]
  apply filter3_perm
  intro v
  cases hi : strings.Contains v.Name "italic" <;> by_cases hn : v.Name = "regular" <;>
    simp [hn]

theorem insertionSort_variantLess_sorts :
    sort.Sorts variantLess (sort.insertionSort variantLess) := by
  have e : variantLess
      = (fun a b => decide (extractNumFromVariant a.Name < extractNumFromVariant b.Name)) := by
    funext a b
    rfl
  rw [e]
  exact sort.insertionSort_sorts (fun v : FontFamilyVariant => extractNumFromVariant v.Name)

/-- C14: when `sort.Slice` meets its contract for the comparison of
`sortVariants`, the result is a rearrangement of the input of the same length:
first the variants named `regular` in input order, then the other variants
whose name does not contain `italic` in input order, then the variants whose
name contains `italic` in non-decreasing order of `extractNumFromVariant`;
that number is the decimal value of the digits, with its sign, for a name
made of an optional sign, digits of a value below `2 ^ 63` and then `italic`
(`100` for `100italic`, `900` for `900italic`) and `0` when the unsigned value
is `2 ^ 63` or more; it is `0` for the name `italic`, and it is non-zero only
for a name made of spaces, an optional sign, decimal digits and then
`italic`. -/
theorem sort_variants_spec (sortSlice : List FontFamilyVariant → List FontFamilyVariant)
    (hs : sort.Sorts variantLess sortSlice) (variants : List FontFamilyVariant) :
    (sortVariants sortSlice variants).Perm variants ∧
    (sortVariants sortSlice variants).length = variants.length ∧
    (∃ italics,
      sortVariants sortSlice variants
        = variants.filter (fun v => decide (v.Name = "regular")) ++
          variants.filter
            (fun v => !strings.Contains v.Name "italic" && !decide (v.Name = "regular")) ++
          italics ∧
      italics.Perm (variants.filter (fun v => strings.Contains v.Name "italic")) ∧
      italics.Pairwise
        (fun a b => extractNumFromVariant a.Name ≤ extractNumFromVariant b.Name)) ∧
    extractNumFromVariant "italic" = 0 ∧
    (∀ name, extractNumFromVariant name ≠ 0 →
      ∃ spaces sign digits rest,
        name.data = spaces ++ sign ++ digits ++ "italic".data ++ rest ∧
        (∀ c ∈ spaces, fmt.isSpace c = true) ∧ (sign = [] ∨ sign = ['+'] ∨ sign = ['-']) ∧
        digits ≠ [] ∧ ∀ c ∈ digits, c.isDigit = true) ∧
    (∀ digits rest : List Char, digits ≠ [] → (∀ c ∈ digits, c.isDigit = true) →
      Nat.ofDigits 10 (digits.reverse.map (fun c => c.toNat - 48)) < 2 ^ 63 →
      extractNumFromVariant (String.mk (digits ++ ("italic".data ++ rest)))
        = ((Nat.ofDigits 10 (digits.reverse.map (fun c => c.toNat - 48)) : Nat) : Int) ∧
      extractNumFromVariant (String.mk ('+' :: (digits ++ ("italic".data ++ rest))))
        = ((Nat.ofDigits 10 (digits.reverse.map (fun c => c.toNat - 48)) : Nat) : Int) ∧
      extractNumFromVariant (String.mk ('-' :: (digits ++ ("italic".data ++ rest))))
        = -((Nat.ofDigits 10 (digits.reverse.map (fun c => c.toNat - 48)) : Nat) : Int)) ∧
    (∀ digits rest : List Char, digits ≠ [] → (∀ c ∈ digits, c.isDigit = true) →
      2 ^ 63 ≤ Nat.ofDigits 10 (digits.reverse.map (fun c => c.toNat - 48)) →
      extractNumFromVariant (String.mk (digits ++ ("italic".data ++ rest))) = 0) ∧
    extractNumFromVariant "100italic" = 100 ∧
    extractNumFromVariant "900italic" = 900 ∧
    extractNumFromVariant "-300italic" = -300 := by
  obtain ⟨bucket, hb, heq⟩ := sortVariants_eq sortSlice variants
  have hperm : (sortSlice bucket).Perm
      (variants.filter (fun v => strings.Contains v.Name "italic")) := (hs bucket).1.trans hb
  have hall : (sortVariants sortSlice variants).Perm variants := by
    rw [heq]
    exact (List.Perm.append_left _ hperm).trans (variants_split_perm variants)
  refine ⟨hall, hall.length_eq, ⟨sortSlice bucket, heq, hperm, ?_⟩, by decide, ?_, ?_, ?_,
    by decide, by decide, by decide⟩
  · refine (hs bucket).2.imp ?_
    intro a b hab
    have hnot : ¬ (extractNumFromVariant b.Name < extractNumFromVariant a.Name) := by
      simpa [variantLess] using hab
    exact not_lt.1 hnot
  · intro name hne
    cases hscan : fmt.SscanfIntItalic name with
    | none =>
      exfalso
      apply hne
      simp [extractNumFromVariant, hscan]
    | some num => exact fmt.SscanfIntItalic_some name num hscan
  · intro digits rest hne hd hv
    rw [← fmt.digitsValue_eq_ofDigits] at hv ⊢
    refine ⟨?_, ?_, ?_⟩
    · simp only [extractNumFromVariant, fmt.Sscanf_unsigned digits rest hne hd hv]
    · simp only [extractNumFromVariant, fmt.Sscanf_plus digits rest hne hd hv]
    · simp only [extractNumFromVariant, fmt.Sscanf_minus digits rest hne hd (le_of_lt hv)]
  · intro digits rest hne hd hv
    rw [← fmt.digitsValue_eq_ofDigits] at hv
    simp only [extractNumFromVariant, fmt.Sscanf_unsigned_overflow digits rest hne hd hv]

/-- C14 at a concrete input, with the insertion sort that `sort.Slice` runs on
short slices: the variants `900italic`, `700`, `100italic`, `regular`, `italic`,
`500italic` come out as `regular`, `700`, `italic`, `100italic`, `500italic`,
`900italic`, a rearrangement of the input; and the digits `4`, `2` before
`italic` are read as `42`. -/
theorem sort_variants_spec_witness :
    ((sortVariants (sort.insertionSort variantLess)
        [{ Name := "900italic", FullName := "", DownloadURL := "", Preview := default },
         { Name := "700", FullName := "", DownloadURL := "", Preview := default },
         { Name := "100italic", FullName := "", DownloadURL := "", Preview := default },
         { Name := "regular", FullName := "", DownloadURL := "", Preview := default },
         { Name := "italic", FullName := "", DownloadURL := "", Preview := default },
         { Name := "500italic", FullName := "", DownloadURL := "", Preview := default }]).map
      (fun v => v.Name)
        = ["regular", "700", "italic", "100italic", "500italic", "900italic"]) ∧
    (sortVariants (sort.insertionSort variantLess)
        [{ Name := "900italic", FullName := "", DownloadURL := "", Preview := default },
         { Name := "700", FullName := "", DownloadURL := "", Preview := default },
         { Name := "100italic", FullName := "", DownloadURL := "", Preview := default },
         { Name := "regular", FullName := "", DownloadURL := "", Preview := default },
         { Name := "italic", FullName := "", DownloadURL := "", Preview := default },
         { Name := "500italic", FullName := "", DownloadURL := "", Preview := default }]).Perm
      [{ Name := "900italic", FullName := "", DownloadURL := "", Preview := default },
       { Name := "700", FullName := "", DownloadURL := "", Preview := default },
       { Name := "100italic", FullName := "", DownloadURL := "", Preview := default },
       { Name := "regular", FullName := "", DownloadURL := "", Preview := default },
       { Name := "italic", FullName := "", DownloadURL := "", Preview := default },
       { Name := "500italic", FullName := "", DownloadURL := "", Preview := default }] ∧
    extractNumFromVariant (String.mk (['4', '2'] ++ ("italic".data ++ [])))
      = ((Nat.ofDigits 10 ((['4', '2'] : List Char).reverse.map (fun c => c.toNat - 48)) : Nat) :
          Int) :=
  ⟨by decide,
   (sort_variants_spec (sort.insertionSort variantLess) insertionSort_variantLess_sorts
      [{ Name := "900italic", FullName := "", DownloadURL := "", Preview := default },
       { Name := "700", FullName := "", DownloadURL := "", Preview := default },
       { Name := "100italic", FullName := "", DownloadURL := "", Preview := default },
       { Name := "regular", FullName := "", DownloadURL := "", Preview := default },
       { Name := "italic", FullName := "", DownloadURL := "", Preview := default },
       { Name := "500italic", FullName := "", DownloadURL := "", Preview := default }]).1,
   ((sort_variants_spec (sort.insertionSort variantLess) insertionSort_variantLess_sorts
      []).2.2.2.2.2.1 ['4', '2'] [] (by decide) (by decide) (by decide)).1⟩

end font_service

namespace font_service

/-! ## `GetFonts` -/

theorem rangeYield_filter_collect (keep : FontFamilyData → Bool)
    (es : List (Sigma (fun _ : String => cache.item FontFamilyData))) :
    ∀ acc : List FontFamilyData,
      cache.rangeYield
          (fun (acc : List FontFamilyData) data => (if keep data then acc ++ [data] else acc, true))
          es acc
        = acc ++ (es.map (fun e => e.2.value)).filter keep := by
  induction es with
  | nil => intro acc; simp [cache.rangeYield]
  | cons e es ih =>
    intro acc
    cases hk : keep e.2.value <;> simp [cache.rangeYield, ih, hk]

theorem GetFonts_eq (toLower : String → String)
    (sortFunc : List FontFamilyData → List FontFamilyData)
    (g : GoogleFontsProvider) (opts : Option GetFontsFilters) :
    GetFonts toLower sortFunc g opts
      = (sortFunc ((cache.All g.cache).1.filter (getFontsKeep toLower opts)), none) := by
  simp [GetFonts, cache.Iterator, rangeYield_filter_collect, cache.All_eq]

theorem getFontsKeep_iff (toLower : String → String) (opts : Option GetFontsFilters)
    (font : FontFamilyData) :
    getFontsKeep toLower opts font = true ↔
      ∀ f, opts = some f →
        (f.Categories ≠ [] → font.Category ∈ f.Categories) ∧
        (∀ search, f.Search = some search → search ≠ "" →
          (toLower search).data <:+: (toLower font.Name).data) := by
  cases opts with
  | none => simp [getFontsKeep]
  | some f =>
    obtain ⟨cats, srch⟩ := f
    simp only [getFontsKeep, GetFontsFilters.CanAddToResults, GetFontsFilters.HasCategory,
      GetFontsFilters.HasSearch, strings.Contains, Option.some.injEq, forall_eq']
    cases cats with
    | nil =>
      cases srch with
      | none => simp
      | some search => by_cases he : search = "" <;> simp [he]
    | cons c cs =>
      cases srch with
      | none => by_cases hm : font.Category ∈ c :: cs <;> simp [hm]
      | some search =>
        by_cases hm : font.Category ∈ c :: cs <;> by_cases he : search = "" <;> simp [hm, he]

/-- Whatever permutation the sort of `slices.SortedFunc` returns, `GetFonts`
returns no error and a rearrangement of the values of all stored items,
expired or not, that the filter accepts. -/
theorem GetFonts_filter (toLower : String → String)
    (sortFunc : List FontFamilyData → List FontFamilyData)
    (hperm : ∀ data, (sortFunc data).Perm data)
    (g : GoogleFontsProvider) (opts : Option GetFontsFilters) :
    (GetFonts toLower sortFunc g opts).2 = none ∧
    (GetFonts toLower sortFunc g opts).1.Perm
      ((g.cache.items.entries.map (fun e => e.2.value)).filter (getFontsKeep toLower opts)) := by
  rw [GetFonts_eq, cache.All_eq]
  exact ⟨rfl, hperm _⟩

theorem wrapInt64_of_bounded (x : Int) (h1 : -2 ^ 63 ≤ x) (h2 : x < 2 ^ 63) :
    wrapInt64 x = x := by
  unfold wrapInt64
  norm_num at h1 h2 ⊢
  omega

/-- When every stored popularity lies in `[-2 ^ 62, 2 ^ 62)`, so that no
difference of two of them overflows, and the sort of this call returned a
rearrangement of its input in which no element compares below an earlier one,
the result of `GetFonts` is in non-decreasing order of popularity. -/
theorem GetFonts_sorted_of_bounded (toLower : String → String)
    (sortFunc : List FontFamilyData → List FontFamilyData)
    (g : GoogleFontsProvider) (opts : Option GetFontsFilters)
    (hp : (sortFunc ((g.cache.items.entries.map (fun e => e.2.value)).filter
        (getFontsKeep toLower opts))).Perm
      ((g.cache.items.entries.map (fun e => e.2.value)).filter (getFontsKeep toLower opts)))
    (hs : (sortFunc ((g.cache.items.entries.map (fun e => e.2.value)).filter
        (getFontsKeep toLower opts))).Pairwise (fun a b => popularityLess b a = false))
    (hb : ∀ e ∈ g.cache.items.entries,
      -2 ^ 62 ≤ e.2.value.Order.Popularity ∧ e.2.value.Order.Popularity < 2 ^ 62) :
    (GetFonts toLower sortFunc g opts).1.Pairwise
      (fun a b => a.Order.Popularity ≤ b.Order.Popularity) := by
  rw [GetFonts_eq, cache.All_eq]
  have hmem : ∀ d ∈ sortFunc ((g.cache.items.entries.map (fun e => e.2.value)).filter
      (getFontsKeep toLower opts)),
      -2 ^ 62 ≤ d.Order.Popularity ∧ d.Order.Popularity < 2 ^ 62 := by
    intro d hd
    have hd2 := (hp.mem_iff).1 hd
    obtain ⟨e, he, rfl⟩ := List.mem_map.1 (List.mem_filter.1 hd2).1
    exact hb e he
  refine hs.imp_of_mem ?_
  intro a b ha hb2 hab
  have hA := hmem a ha
  have hB := hmem b hb2
  have hw : wrapInt64 (b.Order.Popularity - a.Order.Popularity)
      = b.Order.Popularity - a.Order.Popularity := by
    apply wrapInt64_of_bounded
    · norm_num at hA hB ⊢; omega
    · norm_num at hA hB ⊢; omega
  have hnot : ¬ (popularityCmp b a < 0) := by simpa [popularityLess] using hab
  rw [popularityCmp, hw] at hnot
  omega

/-- The ordering of `GetFonts` at a concrete cache with the popularities `5`
and `2`, with the insertion sort that `slices.SortedFunc` runs on short
slices: the result is `2`, `5`. -/
theorem GetFonts_sorted_of_bounded_example :
    ((GetFonts (fun s => s) (sort.insertionSort popularityLess)
        { cache := cache.Set (cache.Set (cache.NewTTL 86400)
              "A" { Name := "A", Category := "serif", HasLicense := true, Variants := [],
                    Order := { Popularity := 5 } } 0)
              "B" { Name := "B", Category := "serif", HasLicense := true, Variants := [],
                    Order := { Popularity := 2 } } 0,
          categories := [] } none).1.map (fun d => d.Order.Popularity) = [2, 5]) ∧
    (GetFonts (fun s => s) (sort.insertionSort popularityLess)
        { cache := cache.Set (cache.Set (cache.NewTTL 86400)
              "A" { Name := "A", Category := "serif", HasLicense := true, Variants := [],
                    Order := { Popularity := 5 } } 0)
              "B" { Name := "B", Category := "serif", HasLicense := true, Variants := [],
                    Order := { Popularity := 2 } } 0,
          categories := [] } none).1.Pairwise
      (fun a b => a.Order.Popularity ≤ b.Order.Popularity) :=
  ⟨by decide,
   GetFonts_sorted_of_bounded (fun s => s) (sort.insertionSort popularityLess)
     { cache := cache.Set (cache.Set (cache.NewTTL 86400)
           "A" { Name := "A", Category := "serif", HasLicense := true, Variants := [],
                 Order := { Popularity := 5 } } 0)
           "B" { Name := "B", Category := "serif", HasLicense := true, Variants := [],
                 Order := { Popularity := 2 } } 0,
       categories := [] } none
     (sort.insertionSort_perm popularityLess _) (by decide) (by decide)⟩

/-- C15 (the code departs from the claim): with the insertion sort that
`slices.SortedFunc` runs on short slices, a cache holding the popularities
`9223372036854775807` and `-2`, in either order of insertion, is returned with
`9223372036854775807` first, because the comparison `a - b` wraps around in a
64-bit `int`. -/
theorem GetFonts_overflow_order :
    ((GetFonts (fun s => s) (sort.insertionSort popularityLess)
        { cache := cache.Set (cache.Set (cache.NewTTL 86400)
              "A" { Name := "A", Category := "serif", HasLicense := true, Variants := [],
                    Order := { Popularity := 9223372036854775807 } } 0)
              "B" { Name := "B", Category := "serif", HasLicense := true, Variants := [],
                    Order := { Popularity := -2 } } 0,
          categories := [] } none).1.map (fun d => d.Order.Popularity)
      = [9223372036854775807, -2]) ∧
    ((GetFonts (fun s => s) (sort.insertionSort popularityLess)
        { cache := cache.Set (cache.Set (cache.NewTTL 86400)
              "B" { Name := "B", Category := "serif", HasLicense := true, Variants := [],
                    Order := { Popularity := -2 } } 0)
              "A" { Name := "A", Category := "serif", HasLicense := true, Variants := [],
                    Order := { Popularity := 9223372036854775807 } } 0,
          categories := [] } none).1.map (fun d => d.Order.Popularity)
      = [9223372036854775807, -2]) ∧
    popularityCmp
      { Name := "A", Category := "serif", HasLicense := true, Variants := [],
        Order := { Popularity := 9223372036854775807 } }
      { Name := "B", Category := "serif", HasLicense := true, Variants := [],
        Order := { Popularity := -2 } } = -9223372036854775807 := by
  decide

end font_service

namespace font_service

/-! ## The per-family body of `CacheFonts` -/

theorem foldl_filesLoopStep (id family : String)
    (es : List (Sigma (fun _ : String => String))) :
    ∀ st : FilesLoopState,
      (es.foldl (filesLoopStep id family) st).Variants
        = st.Variants ++ es.map (fun e => ({
            Name := e.1,
            FullName := family ++ ":" ++ e.1,
            DownloadURL := e.2,
            Preview := createVariantPreviewObj id family e.1 } : FontFamilyVariant)) ∧
      (es.foldl (filesLoopStep id family) st).hasRegular
        = (st.hasRegular || decide ("regular" ∈ es.map Sigma.fst)) ∧
      (es.foldl (filesLoopStep id family) st).has500
        = (st.has500 || decide ("500" ∈ es.map Sigma.fst)) := by
  induction es with
  | nil => intro st; simp
  | cons e es ih =>
    intro st
    rw [List.foldl_cons]
    obtain ⟨h1, h2, h3⟩ := ih (filesLoopStep id family st e)
    rw [h1, h2, h3]
    by_cases hr : e.1 = "regular"
    · by_cases h5 : e.1 = "500"
      · simp [filesLoopStep, hr, h5]
      · have h5c : ("500" == e.1) = false := by
          rw [beq_eq_false_iff_ne]; exact fun h => h5 h.symm
        simp [filesLoopStep, hr, h5, h5c]
    · have hrb : ¬ "regular" = e.1 := fun h => hr h.symm
      by_cases h5 : e.1 = "500"
      · have hrc : ("regular" == e.1) = false := by rw [beq_eq_false_iff_ne]; exact hrb
        simp [filesLoopStep, hr, h5, hrc]
      · have h5b : ¬ "500" = e.1 := fun h => h5 h.symm
        have hrc : ("regular" == e.1) = false := by rw [beq_eq_false_iff_ne]; exact hrb
        have h5c : ("500" == e.1) = false := by rw [beq_eq_false_iff_ne]; exact h5b
        simp [filesLoopStep, hr, h5, hrc, h5c]

theorem sortVariants_perm (sortSlice : List FontFamilyVariant → List FontFamilyVariant)
    (hperm : ∀ data, (sortSlice data).Perm data) (variants : List FontFamilyVariant) :
    (sortVariants sortSlice variants).Perm variants := by
  obtain ⟨bucket, hb, heq⟩ := sortVariants_eq sortSlice variants
  rw [heq]
  exact (List.Perm.append_left _ ((hperm bucket).trans hb)).trans (variants_split_perm variants)

theorem mem_files_keys_iff (files : AList (fun _ : String => String)) (key : String) :
    key ∈ files.entries.map Sigma.fst ↔ (files.lookup key).isSome = true := by
  rw [AList.lookup_isSome, AList.mem_keys]
  rfl

theorem cacheFontsItem_eq (sortSlice : List FontFamilyVariant → List FontFamilyVariant)
    (id : String) (i : Nat) (font : webFontFamily) :
    cacheFontsItem sortSlice id i font
      = if (!decide ("regular" ∈ font.Files.entries.map Sigma.fst) &&
            !decide ("500" ∈ font.Files.entries.map Sigma.fst)) = true then none
        else some {
          Name := font.Family,
          Category := (match font.Category with
            | some c => c
            | none => "unknown"),
          HasLicense := true,
          Variants := sortVariants sortSlice
            (font.Files.entries.map (fun e => ({
                Name := e.1,
                FullName := font.Family ++ ":" ++ e.1,
                DownloadURL := e.2,
                Preview := createVariantPreviewObj id font.Family e.1 } : FontFamilyVariant)) ++
              if decide ("regular" ∈ font.Files.entries.map Sigma.fst) = true then []
              else [{
                Name := "regular",
                FullName := font.Family ++ ":regular",
                DownloadURL := (font.Files.lookup "500").getD "",
                Preview := createVariantPreviewObj id font.Family "500" }]),
          Order := { Popularity := (i : Int) } } := by
  obtain ⟨h1, h2, h3⟩ := foldl_filesLoopStep id font.Family font.Files.entries
    { Variants := [], hasRegular := false, has500 := false }
  unfold cacheFontsItem
  simp only [h1, h2, h3, Bool.false_or, List.nil_append]
  by_cases hr : "regular" ∈ font.Files.entries.map Sigma.fst <;>
    by_cases h5 : "500" ∈ font.Files.entries.map Sigma.fst <;> simp [hr, h5]

theorem countP_regular_files (files : AList (fun _ : String => String))
    (f : Sigma (fun _ : String => String) → FontFamilyVariant) (hf : ∀ e, (f e).Name = e.1) :
    (files.entries.map f).countP (fun v => decide (v.Name = "regular"))
      = if "regular" ∈ files.entries.map Sigma.fst then 1 else 0 := by
  have hcount : (files.entries.map f).countP (fun v => decide (v.Name = "regular"))
      = (files.entries.map Sigma.fst).count "regular" := by
    rw [List.count, List.countP_map, List.countP_map]
    apply List.countP_congr
    intro e _
    simp [hf e]
  rw [hcount]
  have hnd : (files.entries.map Sigma.fst).Nodup := files.keys_nodup
  by_cases hm : "regular" ∈ files.entries.map Sigma.fst
  · rw [if_pos hm, List.count_eq_one_of_mem hnd hm]
  · rw [if_neg hm, List.count_eq_zero_of_not_mem hm]

theorem sortVariants_head_regular (sortSlice : List FontFamilyVariant → List FontFamilyVariant)
    (variants : List FontFamilyVariant)
    (h1 : variants.countP (fun v => decide (v.Name = "regular")) = 1) :
    ∃ first rest, sortVariants sortSlice variants = first :: rest ∧ first.Name = "regular" ∧
      first ∈ variants ∧ ∀ v ∈ variants, v.Name = "regular" → v = first := by
  obtain ⟨bucket, _, heq⟩ := sortVariants_eq sortSlice variants
  rw [List.countP_eq_length_filter] at h1
  obtain ⟨first, hfirst⟩ := List.length_eq_one.1 h1
  have hmem : first ∈ variants.filter (fun v => decide (v.Name = "regular")) := by
    rw [hfirst]
    exact List.mem_singleton_self first
  have hmem2 := List.mem_filter.1 hmem
  refine ⟨first, variants.filter
      (fun v => !strings.Contains v.Name "italic" && !decide (v.Name = "regular")) ++
      sortSlice bucket, ?_, by simpa using hmem2.2, hmem2.1, ?_⟩
  · rw [heq, hfirst]
    simp
  · intro v hv hn
    have hvf : v ∈ variants.filter (fun v => decide (v.Name = "regular")) :=
      List.mem_filter.2 ⟨hv, by simpa using hn⟩
    rw [hfirst] at hvf
    exact List.mem_singleton.1 hvf

/-- C16: for a catalog item `font` at index `i`, when `sort.Slice` returns a
rearrangement of its input, the body of the loop of `CacheFonts` produces an
item to store exactly when the files map has a `regular` or a `500` key; the
item stored has exactly one variant named `regular`, which is the first of
`Variants`; its `DownloadURL` is the URL of the `500` file when the map has no
`regular` key and the URL of the `regular` file otherwise; the number of
variants is the number of files, plus one when `regular` was synthesised; and
the loop round calls `Set` and appends to `shortItems` exactly for such an
item. -/
theorem cache_fonts_item_spec (sortSlice : List FontFamilyVariant → List FontFamilyVariant)
    (hperm : ∀ data, (sortSlice data).Perm data) (i : Nat) (font : webFontFamily) :
    ((cacheFontsItem sortSlice "google" i font).isSome = true ↔
      ((font.Files.lookup "regular").isSome = true ∨ (font.Files.lookup "500").isSome = true)) ∧
    (∀ item, cacheFontsItem sortSlice "google" i font = some item →
      item.Name = font.Family ∧
      item.Variants.countP (fun v => decide (v.Name = "regular")) = 1 ∧
      (∃ first rest, item.Variants = first :: rest ∧ first.Name = "regular" ∧
        (font.Files.lookup "regular" = none →
          font.Files.lookup "500" = some first.DownloadURL) ∧
        (∀ url, font.Files.lookup "regular" = some url → first.DownloadURL = url)) ∧
      item.Variants.length
        = font.Files.entries.length + (if (font.Files.lookup "regular").isSome then 0 else 1)) ∧
    (∀ (now : cache.Time) (st : CacheFontsState),
      (cacheFontsItem sortSlice "google" i font = none →
        (cacheFontsStep sortSlice now st i font).g.cache = st.g.cache ∧
        (cacheFontsStep sortSlice now st i font).shortItems = st.shortItems) ∧
      (∀ item, cacheFontsItem sortSlice "google" i font = some item →
        (cacheFontsStep sortSlice now st i font).g.cache
          = cache.Set st.g.cache item.Name item now ∧
        (cacheFontsStep sortSlice now st i font).shortItems = st.shortItems ++ [item])) := by
  have hR := mem_files_keys_iff font.Files "regular"
  have h5 := mem_files_keys_iff font.Files "500"
  refine ⟨?_, ?_, ?_⟩
  · rw [cacheFontsItem_eq, ← hR, ← h5]
    by_cases hr : "regular" ∈ font.Files.entries.map Sigma.fst <;>
      by_cases hf : "500" ∈ font.Files.entries.map Sigma.fst <;> simp [hr, hf]
  · intro item hitem
    rw [cacheFontsItem_eq] at hitem
    split at hitem
    · cases hitem
    · rename_i hcond
      simp only [Option.some.injEq] at hitem
      subst hitem
      simp only
      have hcount := countP_regular_files font.Files
        (fun e => ({
          Name := e.1,
          FullName := font.Family ++ ":" ++ e.1,
          DownloadURL := e.2,
          Preview := createVariantPreviewObj "google" font.Family e.1 } : FontFamilyVariant))
        (fun _ => rfl)
      by_cases hr : "regular" ∈ font.Files.entries.map Sigma.fst
      · have hsome : (font.Files.lookup "regular").isSome = true := hR.1 hr
        simp only [hr, decide_True, if_true, List.append_nil] at hcount ⊢
        have hp := sortVariants_perm sortSlice hperm (font.Files.entries.map (fun e => ({
          Name := e.1,
          FullName := font.Family ++ ":" ++ e.1,
          DownloadURL := e.2,
          Preview := createVariantPreviewObj "google" font.Family e.1 } : FontFamilyVariant)))
        obtain ⟨first, rest, hfr, hname, _, huniq⟩ :=
          sortVariants_head_regular sortSlice _ hcount
        refine ⟨trivial, by rw [hp.countP_eq, hcount], ⟨first, rest, hfr, hname, ?_, ?_⟩, ?_⟩
        · intro hnone
          rw [hnone] at hsome
          cases hsome
        · intro url hurl
          have hent : (⟨"regular", url⟩ : Sigma (fun _ : String => String)) ∈ font.Files.entries :=
            AList.mem_lookup_iff.1 hurl
          have := huniq _ (List.mem_map.2 ⟨_, hent, rfl⟩) rfl
          rw [← this]
        · rw [hp.length_eq, hsome]
          simp
      · have hnone : font.Files.lookup "regular" = none := by
          cases hl : font.Files.lookup "regular" with
          | none => rfl
          | some u => exact absurd (hR.2 (by rw [hl]; rfl)) hr
        have hf : "500" ∈ font.Files.entries.map Sigma.fst := by
          by_contra hf
          simp [hr, hf] at hcond
        obtain ⟨url5, hurl5⟩ := Option.isSome_iff_exists.1 (h5.1 hf)
        simp only [hr, decide_False, Bool.false_eq_true, if_false] at hcount ⊢
        have hcount2 : (font.Files.entries.map (fun e => ({
              Name := e.1,
              FullName := font.Family ++ ":" ++ e.1,
              DownloadURL := e.2,
              Preview := createVariantPreviewObj "google" font.Family e.1 } : FontFamilyVariant)) ++
            [({ Name := "regular",
                FullName := font.Family ++ ":regular",
                DownloadURL := (font.Files.lookup "500").getD "",
                Preview := createVariantPreviewObj "google" font.Family "500" } :
                  FontFamilyVariant)]).countP
            (fun v => decide (v.Name = "regular")) = 1 := by
          rw [List.countP_append, hcount]
          simp
        have hp := sortVariants_perm sortSlice hperm (font.Files.entries.map (fun e => ({
              Name := e.1,
              FullName := font.Family ++ ":" ++ e.1,
              DownloadURL := e.2,
              Preview := createVariantPreviewObj "google" font.Family e.1 } : FontFamilyVariant)) ++
            [({ Name := "regular",
                FullName := font.Family ++ ":regular",
                DownloadURL := (font.Files.lookup "500").getD "",
                Preview := createVariantPreviewObj "google" font.Family "500" } :
                  FontFamilyVariant)])
        obtain ⟨first, rest, hfr, hname, _, huniq⟩ :=
          sortVariants_head_regular sortSlice _ hcount2
        refine ⟨trivial, by rw [hp.countP_eq, hcount2], ⟨first, rest, hfr, hname, ?_, ?_⟩, ?_⟩
        · intro _
          have := huniq
            ({ Name := "regular",
               FullName := font.Family ++ ":regular",
               DownloadURL := (font.Files.lookup "500").getD "",
               Preview := createVariantPreviewObj "google" font.Family "500" } :
                 FontFamilyVariant)
            (List.mem_append_right _ (List.mem_singleton_self _)) rfl
          rw [← this, hurl5]
          rfl
        · intro url hurl
          rw [hnone] at hurl
          cases hurl
        · rw [hp.length_eq, hnone]
          simp
  · intro now st
    constructor
    · intro hnone
      simp [cacheFontsStep, GoogleFontsProvider.GetId, hnone]
    · intro item hitem
      simp [cacheFontsStep, GoogleFontsProvider.GetId, hitem]

/-- C16 at a concrete input: a family whose files are `500` and `700` is
stored, with a synthesised `regular` variant first that downloads the `500`
file. -/
theorem cache_fonts_item_spec_witness :
    (cacheFontsItem (sort.insertionSort variantLess) "google" 3
        { Category := none, Kind := "", Family := "Inter", Subsets := [], Variants := [],
          Version := "", LastModified := "",
          Files := AList.insert "500" "u500" (AList.insert "700" "u700" ∅) }).isSome = true ∧
    (cacheFontsItem (sort.insertionSort variantLess) "google" 3
        { Category := none, Kind := "", Family := "Inter", Subsets := [], Variants := [],
          Version := "", LastModified := "",
          Files := AList.insert "500" "u500" (AList.insert "700" "u700" ∅) }).map
      (fun item => item.Variants.map (fun v => (v.Name, v.DownloadURL)))
      = some [("regular", "u500"), ("500", "u500"), ("700", "u700")] :=
  ⟨(cache_fonts_item_spec (sort.insertionSort variantLess)
      (fun data => sort.insertionSort_perm variantLess data) 3
      { Category := none, Kind := "", Family := "Inter", Subsets := [], Variants := [],
        Version := "", LastModified := "",
        Files := AList.insert "500" "u500" (AList.insert "700" "u700" ∅) }).1.2
      (Or.inr (by decide)),
   by decide⟩

end font_service

namespace font_service

/-! ## `loadCacheData` -/

theorem loadCacheData_of_notExist {F D : Type}
    (unmarshal : List UInt8 → D → D × Option GoError) (fs : os.FS F) (path : String) (data : D)
    (h : os.IsNotExist (fs.Stat path) = true) :
    loadCacheData unmarshal fs path data = ((false, none), data) := by
  simp [loadCacheData, utils.FileExists, h]

theorem loadCacheData_of_openError {F D : Type}
    (unmarshal : List UInt8 → D → D × Option GoError) (fs : os.FS F) (path : String) (data : D)
    (err : GoError) (h : os.IsNotExist (fs.Stat path) = false)
    (ho : fs.Open path = Except.error err) :
    loadCacheData unmarshal fs path data = ((false, some err), data) := by
  simp [loadCacheData, utils.FileExists, h, ho]

theorem loadCacheData_of_readError {F D : Type}
    (unmarshal : List UInt8 → D → D × Option GoError) (fs : os.FS F) (path : String) (data : D)
    (file : F) (err : GoError) (h : os.IsNotExist (fs.Stat path) = false)
    (ho : fs.Open path = Except.ok file) (hr : fs.ReadAll file = Except.error err) :
    loadCacheData unmarshal fs path data = ((false, some err), data) := by
  simp [loadCacheData, utils.FileExists, h, ho, hr]

theorem loadCacheData_of_body {F D : Type}
    (unmarshal : List UInt8 → D → D × Option GoError) (fs : os.FS F) (path : String) (data : D)
    (file : F) (body : List UInt8) (h : os.IsNotExist (fs.Stat path) = false)
    (ho : fs.Open path = Except.ok file) (hr : fs.ReadAll file = Except.ok body) :
    loadCacheData unmarshal fs path data
      = if body.length == 0 then ((false, none), data)
        else match unmarshal body data with
          | (data2, some err) => ((false, some err), data2)
          | (data2, none) => ((true, none), data2) := by
  simp [loadCacheData, utils.FileExists, h, ho, hr]

theorem loadCacheData_loaded_iff {F D : Type}
    (unmarshal : List UInt8 → D → D × Option GoError) (fs : os.FS F) (path : String)
    (data : D) :
    (loadCacheData unmarshal fs path data).1.1 = true ↔
      ∃ file body, os.IsNotExist (fs.Stat path) = false ∧ fs.Open path = Except.ok file ∧
        fs.ReadAll file = Except.ok body ∧ body ≠ [] ∧ (unmarshal body data).2 = none := by
  cases h : os.IsNotExist (fs.Stat path) with
  | true => simp [loadCacheData_of_notExist unmarshal fs path data h]
  | false =>
    cases ho : fs.Open path with
    | error err => simp [loadCacheData_of_openError unmarshal fs path data err h ho]
    | ok file =>
      cases hr : fs.ReadAll file with
      | error err =>
        simp [loadCacheData_of_readError unmarshal fs path data file err h ho hr, hr]
      | ok body =>
        rw [loadCacheData_of_body unmarshal fs path data file body h ho hr]
        cases body with
        | nil => simp [hr]
        | cons b bs =>
          rcases hu : unmarshal (b :: bs) data with ⟨data2, _ | err⟩ <;> simp [hr, hu]

theorem ofContent_of_missing (content : String → Option (List UInt8)) (path : String)
    (h : content path = none) : os.IsNotExist ((os.ofContent content).Stat path) = true := by
  simp [os.ofContent, os.IsNotExist, h]

theorem ofContent_of_file (content : String → Option (List UInt8)) (path : String)
    (body : List UInt8) (h : content path = some body) :
    os.IsNotExist ((os.ofContent content).Stat path) = false ∧
    (os.ofContent content).Open path = Except.ok body ∧
    (os.ofContent content).ReadAll body = Except.ok body := by
  simp [os.ofContent, os.IsNotExist, h]

/-- C13: on any operating system, `loadCacheData` returns `loaded = false` and
no error and leaves the destination untouched when `os.Stat` answers that the
file does not exist or when the file is read and has zero bytes; it returns
`loaded = true`, with no error, exactly when the file is opened and read, is
non-empty and `json.Unmarshal` decodes it without error; when the non-empty
content does not decode it returns that error with `loaded = false`; and an
error of `os.Open` or of `io.ReadAll` is returned with `loaded = false` and the
destination untouched.  With the file system an optional byte string per path
(`os.ofContent`), these are the statements of the claim: a missing or an empty
file gives `(false, nil)` and no change, `loaded = true` exactly when the
content is non-empty and decodes, and undecodable non-empty content gives the
error. -/
theorem load_cache_data_spec {F D : Type} (unmarshal : List UInt8 → D → D × Option GoError)
    (fs : os.FS F) (content : String → Option (List UInt8)) (path : String) (data : D) :
    (os.IsNotExist (fs.Stat path) = true →
      loadCacheData unmarshal fs path data = ((false, none), data)) ∧
    (∀ file, os.IsNotExist (fs.Stat path) = false → fs.Open path = Except.ok file →
      fs.ReadAll file = Except.ok [] →
      loadCacheData unmarshal fs path data = ((false, none), data)) ∧
    ((loadCacheData unmarshal fs path data).1.1 = true ↔
      ∃ file body, os.IsNotExist (fs.Stat path) = false ∧ fs.Open path = Except.ok file ∧
        fs.ReadAll file = Except.ok body ∧ body ≠ [] ∧ (unmarshal body data).2 = none) ∧
    ((loadCacheData unmarshal fs path data).1.1 = true →
      (loadCacheData unmarshal fs path data).1.2 = none) ∧
    (∀ file body err, os.IsNotExist (fs.Stat path) = false → fs.Open path = Except.ok file →
      fs.ReadAll file = Except.ok body → body ≠ [] → (unmarshal body data).2 = some err →
      (loadCacheData unmarshal fs path data).1 = (false, some err)) ∧
    (∀ err, os.IsNotExist (fs.Stat path) = false → fs.Open path = Except.error err →
      loadCacheData unmarshal fs path data = ((false, some err), data)) ∧
    (∀ file err, os.IsNotExist (fs.Stat path) = false → fs.Open path = Except.ok file →
      fs.ReadAll file = Except.error err →
      loadCacheData unmarshal fs path data = ((false, some err), data)) ∧
    ((content path = none ∨ content path = some []) →
      loadCacheData unmarshal (os.ofContent content) path data = ((false, none), data)) ∧
    ((loadCacheData unmarshal (os.ofContent content) path data).1.1 = true ↔
      ∃ body, content path = some body ∧ body ≠ [] ∧ (unmarshal body data).2 = none) ∧
    (∀ body err, content path = some body → body ≠ [] → (unmarshal body data).2 = some err →
      (loadCacheData unmarshal (os.ofContent content) path data).1 = (false, some err)) := by
  have hbody : ∀ {G : Type} (gs : os.FS G) (file : G) (body : List UInt8) (err : GoError),
      os.IsNotExist (gs.Stat path) = false → gs.Open path = Except.ok file →
      gs.ReadAll file = Except.ok body → body ≠ [] → (unmarshal body data).2 = some err →
      (loadCacheData unmarshal gs path data).1 = (false, some err) := by
    intro G gs file body err h ho hr hne hu
    rw [loadCacheData_of_body unmarshal gs path data file body h ho hr]
    cases body with
    | nil => exact absurd rfl hne
    | cons b bs =>
      rcases hu2 : unmarshal (b :: bs) data with ⟨data2, _ | e2⟩
      · rw [hu2] at hu
        cases hu
      · rw [hu2] at hu
        simp only [Option.some.injEq] at hu
        simp [hu]
  refine ⟨loadCacheData_of_notExist unmarshal fs path data, ?_,
    loadCacheData_loaded_iff unmarshal fs path data, ?_,
    fun file body err => hbody fs file body err,
    fun err h ho => loadCacheData_of_openError unmarshal fs path data err h ho,
    fun file err h ho hr => loadCacheData_of_readError unmarshal fs path data file err h ho hr,
    ?_, ?_, ?_⟩
  · intro file h ho hr
    rw [loadCacheData_of_body unmarshal fs path data file [] h ho hr]
    rfl
  · intro hl
    obtain ⟨file, body, h, ho, hr, hne, hu⟩ :=
      (loadCacheData_loaded_iff unmarshal fs path data).1 hl
    rw [loadCacheData_of_body unmarshal fs path data file body h ho hr]
    cases body with
    | nil => exact absurd rfl hne
    | cons b bs =>
      rcases hu2 : unmarshal (b :: bs) data with ⟨data2, _ | e2⟩
      · simp
      · rw [hu2] at hu
        cases hu
  · rintro (hc | hc)
    · exact loadCacheData_of_notExist unmarshal _ path data (ofContent_of_missing content path hc)
    · obtain ⟨h, ho, hr⟩ := ofContent_of_file content path [] hc
      rw [loadCacheData_of_body unmarshal _ path data [] [] h ho hr]
      rfl
  · rw [loadCacheData_loaded_iff]
    constructor
    · rintro ⟨file, body, h, ho, hr, hne, hu⟩
      cases hc : content path with
      | none => rw [ofContent_of_missing content path hc] at h; cases h
      | some b0 =>
        obtain ⟨_, ho2, hr2⟩ := ofContent_of_file content path b0 hc
        have e1 : b0 = file := by
          rw [ho2] at ho
          exact Except.ok.inj ho
        subst e1
        have e2 : b0 = body := by
          rw [hr2] at hr
          exact Except.ok.inj hr
        subst e2
        exact ⟨b0, rfl, hne, hu⟩
    · rintro ⟨body, hc, hne, hu⟩
      obtain ⟨h, ho, hr⟩ := ofContent_of_file content path body hc
      exact ⟨body, body, h, ho, hr, hne, hu⟩
  · intro body err hc hne hu
    obtain ⟨h, ho, hr⟩ := ofContent_of_file content path body hc
    exact hbody (os.ofContent content) body body err h ho hr hne hu

/-- C13 at concrete inputs, with a decoder that accepts exactly the one-byte
content `1`: a missing file, an empty file, a file that decodes and a file
that does not, on the file system of optional byte strings; and a path under
a non-directory, where `os.Stat` and `os.Open` fail with another error. -/
theorem load_cache_data_spec_witness :
    loadCacheData (fun body (d : Nat) => if body = [1] then (d + 1, none)
        else (d, some (GoError.Other "syntax"))) (os.ofContent (fun _ => none)) "cache.json" 7
      = ((false, none), 7) ∧
    loadCacheData (fun body (d : Nat) => if body = [1] then (d + 1, none)
        else (d, some (GoError.Other "syntax"))) (os.ofContent (fun _ => some [])) "cache.json" 7
      = ((false, none), 7) ∧
    loadCacheData (fun body (d : Nat) => if body = [1] then (d + 1, none)
        else (d, some (GoError.Other "syntax"))) (os.ofContent (fun _ => some [1])) "cache.json" 7
      = ((true, none), 8) ∧
    (loadCacheData (fun body (d : Nat) => if body = [1] then (d + 1, none)
        else (d, some (GoError.Other "syntax"))) (os.ofContent (fun _ => some [2]))
        "cache.json" 7).1
      = (false, some (GoError.Other "syntax")) ∧
    loadCacheData (fun body (d : Nat) => if body = [1] then (d + 1, none)
        else (d, some (GoError.Other "syntax")))
        ({ Stat := fun _ => some (GoError.Other "not a directory"),
           Open := fun _ => Except.error (GoError.Other "not a directory"),
           ReadAll := fun file => Except.ok file } : os.FS (List UInt8)) "file.txt/cache.json" 7
      = ((false, some (GoError.Other "not a directory")), 7) :=
  ⟨(load_cache_data_spec _ (os.ofContent (fun _ => none)) (fun _ => none) "cache.json" 7).2.2.2.2.2.2.2.1
      (Or.inl rfl),
   (load_cache_data_spec _ (os.ofContent (fun _ => some [])) (fun _ => some []) "cache.json"
      7).2.2.2.2.2.2.2.1 (Or.inr rfl),
   by decide,
   (load_cache_data_spec _ (os.ofContent (fun _ => some [2])) (fun _ => some [2]) "cache.json"
      7).2.2.2.2.2.2.2.2.2 [2] (GoError.Other "syntax") rfl (by decide) (by decide),
   (load_cache_data_spec _
      ({ Stat := fun _ => some (GoError.Other "not a directory"),
         Open := fun _ => Except.error (GoError.Other "not a directory"),
         ReadAll := fun file => Except.ok file } : os.FS (List UInt8))
      (fun _ => none) "file.txt/cache.json" 7).2.2.2.2.2.1
      (GoError.Other "not a directory") rfl rfl⟩

end font_service
